import Mathlib

/-!
Verification of the prose-writer repository's accumulation-and-rendering
engine.  JavaScript strings are modelled shallowly as lists of characters
(`Str`), the mutable `ProseWriter` object as an explicit `Writer` state
record, and each method of the source as a Lean function on that state.
-/

namespace ProseWriter

/-- JavaScript strings are modelled as lists of characters. -/
abbrev Str := List Char

/-- Newline character. -/
def nl : Char := '\n'

/-- Conversion from Lean string literals into the model. -/
def S (s : String) : Str := s.data

/-- The whitespace class used by JavaScript `trim`/`\s` (ASCII part). -/
def isWs (c : Char) : Bool :=
  c == ' ' || c == '\t' || c == '\n' || c == '\r' ||
  c == Char.ofNat 11 || c == Char.ofNat 12

/-- JavaScript `String.prototype.trimEnd`. -/
def jsTrimEnd (s : Str) : Str := (s.reverse.dropWhile isWs).reverse

/-- JavaScript `String.prototype.trimStart`. -/
def jsTrimStart (s : Str) : Str := s.dropWhile isWs

/-- JavaScript `String.prototype.trim`. -/
def jsTrim (s : Str) : Str := jsTrimStart (jsTrimEnd s)

/-- JavaScript `str.split('\n')`: splits on every newline, keeping empty
pieces (`"".split` gives one empty piece). -/
def splitOnNl : Str → List Str
  | [] => [[]]
  | c :: cs =>
    if c = nl then [] :: splitOnNl cs
    else
      match splitOnNl cs with
      | [] => [[c]]
      | l :: ls => (c :: l) :: ls

/-- JavaScript `String.prototype.endsWith` on the model. -/
def endsWith (s suffix : Str) : Bool := suffix.isSuffixOf s

/-- Number of newline characters at the end of a string (maximal run). -/
def trailNL (s : Str) : Nat := (s.reverse.takeWhile (· = nl)).length

/-- Number of newline characters at the start of a string (maximal run). -/
def leadNL (s : Str) : Nat := (s.takeWhile (· = nl)).length

/-- Substring search (JavaScript `includes`). -/
def occursIn (pat : Str) : Str → Bool
  | [] => pat.isEmpty
  | c :: cs => pat.isPrefixOf (c :: cs) || occursIn pat cs

/-- JavaScript `Array.prototype.join` with a separator string. -/
def joinSep (sep : Str) : List Str → Str
  | [] => []
  | [p] => p
  | p :: q :: rest => p ++ sep ++ joinSep sep (q :: rest)

/-- Decimal digit accumulation for `natToStr`. -/
def natToStrGo (fuel : Nat) (n : Nat) (acc : Str) : Str :=
  match fuel with
  | 0 => acc
  | fuel + 1 =>
    if n < 10 then Char.ofNat (48 + n) :: acc
    else natToStrGo fuel (n / 10) (Char.ofNat (48 + n % 10) :: acc)

/-- JavaScript template-literal coercion of a non-negative number. -/
def natToStr (n : Nat) : Str := natToStrGo (n + 1) n []

/-- The state of a `ProseWriter` object: the ordered fragment sequence,
the one-shot padding-suppression flag, and the safe-mode flag
(`private parts / _skipNextPadding / safeMode` in the source). -/
structure Writer where
  parts : List Str
  skipNextPadding : Bool
  safeMode : Bool
deriving DecidableEq, Repr

/-- `toString()`: pure concatenation of the fragment sequence. -/
def render (w : Writer) : Str := w.parts.flatten

/-- The `ProseWriter` constructor: optional seed content (normalised to end
with a newline) and the `safe` option. -/
def makeWriter (content : Option Str) (safe : Bool) : Writer :=
  { parts :=
      match content with
      | none => []
      | some c => [if endsWith c [nl] then c else c ++ [nl]]
    skipNextPadding := false
    safeMode := safe }

/-- `createChildWriter()`: a fresh empty writer inheriting the safe flag. -/
def createChildWriter (w : Writer) : Writer := makeWriter none w.safeMode

/-- The last stored fragment (`this.parts[this.parts.length - 1]`),
defaulting to the empty string. -/
def lastFragment (w : Writer) : Str := w.parts.getLastD []

/-- The `padding` getter, embedded from the source.  It returns the computed
prefix together with the (possibly mutated) writer, because reading the
getter clears the one-shot `_skipNextPadding` flag in its first branch. -/
def paddingGet (w : Writer) : Str × Writer :=
  if w.skipNextPadding || w.parts.isEmpty then
    ([], { w with skipNextPadding := false })
  else if endsWith (lastFragment w) [nl, nl] then ([], w)
  else if endsWith (lastFragment w) [nl] then ([nl], w)
  else ([nl, nl], w)

/-- `this.parts.push(padding + body)`: every appender follows this shape. -/
def pushWithPadding (w : Writer) (body : Str) : Writer :=
  { (paddingGet w).2 with
    parts := (paddingGet w).2.parts ++ [(paddingGet w).1 ++ body] }

/-- `nextLine()` (present in the repository's `src/prose-writer.ts`): sets
the one-shot suppression flag. -/
def nextLine (w : Writer) : Writer := { w with skipNextPadding := true }

/-- The backtick character. -/
def backtick : Char := Char.ofNat 96

/-- `escapeXmlText`: the three sequential global replaces are equivalent to
one character-wise pass, since no replacement introduces characters matched
by a later replace. -/
def escapeXmlText (value : Str) : Str :=
  value.flatMap fun c =>
    if c = '&' then S ("&amp;")
    else if c = '<' then S ("&lt;")
    else if c = '>' then S ("&gt;")
    else [c]

/-- `escapeMarkdownLineStart`: escapes a leading heading / blockquote /
bullet / ordered-number marker (after leading whitespace), as in the four
regex cases of the source. -/
def escapeMarkdownLineStart (line : Str) : Str :=
  let ws := line.takeWhile isWs
  let rest := line.dropWhile isWs
  let hashes := rest.takeWhile (· = '#')
  let afterHashesWs : Bool :=
    match rest.drop hashes.length with
    | c :: _ => isWs c
    | [] => false
  if 1 ≤ hashes.length && hashes.length ≤ 6 && afterHashesWs then
    ws ++ '\\' :: rest
  else if (match rest with | c :: _ => c = '>' | [] => false : Bool) then
    ws ++ '\\' :: rest
  else if (match rest with
           | c :: d :: _ => (c = '-' || c = '+' || c = '*') && isWs d
           | _ => false : Bool) then
    ws ++ '\\' :: rest
  else
    let digits := rest.takeWhile Char.isDigit
    if !digits.isEmpty &&
       (match rest.drop digits.length with
        | c :: d :: _ => c = '.' && isWs d
        | _ => false : Bool) then
      ws ++ digits ++ '\\' :: '.' :: (rest.drop (digits.length + 1))
    else line

/-- The markdown-significant characters escaped with a backslash
(the character class of the source plus the bracket replaces). -/
def mdSpecial (c : Char) : Bool :=
  c = '\\' || c = backtick || c = '*' || c = '_' || c = '~' ||
  c = '(' || c = ')' || c = '|' || c = '!' || c = '[' || c = ']'

/-- `escapeMarkdownText`: XML escaping, backslash-escaping of markdown
punctuation, then per-line leading-marker escaping. -/
def escapeMarkdownText (value : Str) : Str :=
  let escaped := (escapeXmlText value).flatMap fun c =>
    if mdSpecial c then ['\\', c] else [c]
  joinSep [nl] ((splitOnNl escaped).map escapeMarkdownLineStart)

/-- Length of the longest run of a given character in a string. -/
def maxRunAux (c : Char) : Str → Nat → Nat → Nat
  | [], cur, best => max cur best
  | x :: xs, cur, best =>
    if x = c then maxRunAux c xs (cur + 1) best
    else maxRunAux c xs 0 (max cur best)

/-- `wrapInlineCode`: fences the content with one more backtick than its
longest backtick run, padding with spaces when the content starts or ends
with whitespace. -/
def wrapInlineCode (value : Str) : Str :=
  let fenceSize := maxRunAux backtick value 0 0 + 1
  let fence := List.replicate fenceSize backtick
  let needsPadding : Bool :=
    (match value with | c :: _ => isWs c | [] => false) ||
    (match value.getLast? with | some c => isWs c | none => false)
  let content := if needsPadding then ' ' :: value ++ [' '] else value
  fence ++ content ++ fence

/-- The characters `encodeURI` leaves unescaped (ASCII alphanumerics,
marks, reserved characters and the hash sign). -/
def uriAllowed (c : Char) : Bool :=
  c.isAlpha || c.isDigit ||
  c = '-' || c = '_' || c = '.' || c = '!' || c = '~' || c = '*' ||
  c = Char.ofNat 39 || c = '(' || c = ')' ||
  c = ';' || c = '/' || c = '?' || c = ':' || c = '@' || c = '&' ||
  c = '=' || c = '+' || c = '$' || c = ',' || c = '#'

/-- UTF-8 encoding of a unicode scalar value. -/
def utf8Bytes (c : Char) : List Nat :=
  let n := c.toNat
  if n < 128 then [n]
  else if n < 2048 then [192 + n / 64, 128 + n % 64]
  else if n < 65536 then [224 + n / 4096, 128 + (n / 64) % 64, 128 + n % 64]
  else [240 + n / 262144, 128 + (n / 4096) % 64, 128 + (n / 64) % 64, 128 + n % 64]

/-- Uppercase hexadecimal digit. -/
def hexDigit (n : Nat) : Char :=
  if n < 10 then Char.ofNat (48 + n) else Char.ofNat (55 + n)

/-- JavaScript `encodeURI` (a host builtin): percent-encodes the UTF-8
bytes of every character outside the allowed set. -/
def encodeURI (s : Str) : Str :=
  s.flatMap fun c =>
    if uriAllowed c then [c]
    else (utf8Bytes c).flatMap fun b => ['%', hexDigit (b / 16), hexDigit (b % 16)]

/-- `escapeLinkDestination`: encode, then backslash-escape parentheses. -/
def escapeLinkDestination (url : Str) : Str :=
  (encodeURI url).flatMap fun c =>
    if c = '(' || c = ')' then ['\\', c] else [c]

/-- ASCII lowercase (model of `toLowerCase` for the characters the scheme
regexes can match). -/
def asciiLower (c : Char) : Char :=
  if 'A' ≤ c && c ≤ 'Z' then Char.ofNat (c.toNat + 32) else c

/-- Lowercasing a string. -/
def toLowerStr (s : Str) : Str := s.map asciiLower

/-- Lowercase ASCII letter test. -/
def isAzLower (c : Char) : Bool := 'a' ≤ c && c ≤ 'z'

/-- The character class of the scheme regex body. -/
def isSchemeChar (c : Char) : Bool :=
  isAzLower c || c.isDigit || c = '+' || c = '.' || c = '-'

/-- After the first letter: zero or more scheme characters then a colon. -/
def schemeColonAfter : Str → Bool
  | [] => false
  | c :: cs => if c = ':' then true else if isSchemeChar c then schemeColonAfter cs else false

/-- The test of the source regex matching any URL scheme. -/
def schemeRegexTest (l : Str) : Bool :=
  match l with
  | [] => false
  | c :: cs => isAzLower c && schemeColonAfter cs

/-- The test of the source regex matching the allowed schemes. -/
def allowedSchemeTest (l : Str) : Bool :=
  (S ("http:")).isPrefixOf l || (S ("https:")).isPrefixOf l ||
  (S ("mailto:")).isPrefixOf l

/-- `sanitizeLinkDestination`: reject a non-http/https/mailto scheme with
the placeholder, otherwise percent-encode the trimmed destination. -/
def sanitizeLinkDestination (url : Str) : Str :=
  if schemeRegexTest (toLowerStr (jsTrim url)) &&
     !allowedSchemeTest (toLowerStr (jsTrim url)) then S ("#")
  else escapeLinkDestination (jsTrim url)

/-- The values accepted by the writer methods, together with the
`SafeString` trusted marker (the `.safe` constructor).  JavaScript numbers
are modelled by their integral values. -/
inductive ContentValue where
  | str (s : Str)
  | num (n : Int)
  | bool (b : Bool)
  | writer (w : Writer)
  | safe (s : Str)
deriving DecidableEq, Repr

/-- JavaScript `String(content)` / template-literal coercion. -/
def jsString : ContentValue → Str
  | .str s => s
  | .num n => (Int.repr n).data
  | .bool b => if b then S ("true") else S ("false")
  | .writer w => render w
  | .safe s => s

/-- The trim argument of `toContentString`. -/
inductive TrimMode where
  | noTrim
  | endTrim
  | bothTrim
deriving DecidableEq, Repr

/-- `toContentString`: unwraps trusted `SafeString`/writer content (with
the requested trimming for writers) and marks everything else untrusted. -/
def toContentString (content : ContentValue) (trim : TrimMode) : Str × Bool :=
  match content with
  | .safe s => (s, true)
  | .writer w =>
    let raw := render w
    (match trim with
     | .noTrim => raw
     | .endTrim => jsTrimEnd raw
     | .bothTrim => jsTrim raw, true)
  | c => (jsString c, false)

/-- `toSafeInlineText`: escape the text unless it is already trusted. -/
def toSafeInlineText (content : ContentValue) : Str :=
  let p := toContentString content .bothTrim
  if p.2 then p.1 else escapeMarkdownText p.1

/-- The recurring method body pattern
`const (value, isTrusted) = toContentString(c, trim);
safeMode && !isTrusted ? escapeMarkdownText(value) : value`. -/
def escapeUntrusted (safe : Bool) (trim : TrimMode) (c : ContentValue) : Str :=
  if safe && !(toContentString c trim).2 then
    escapeMarkdownText (toContentString c trim).1
  else (toContentString c trim).1

/-- `safeBold`: escapes and wraps, returning a trusted value. -/
def safeBold (content : ContentValue) : ContentValue :=
  .safe (S ("**") ++ toSafeInlineText content ++ S ("**"))

/-- `safeItalic`. -/
def safeItalic (content : ContentValue) : ContentValue :=
  .safe ('*' :: toSafeInlineText content ++ ['*'])

/-- `safeStrike`. -/
def safeStrike (content : ContentValue) : ContentValue :=
  .safe (S ("~~") ++ toSafeInlineText content ++ S ("~~"))

/-- `safeInlineCode`: fences the raw (unescaped) text adaptively. -/
def safeInlineCode (content : ContentValue) : ContentValue :=
  .safe (wrapInlineCode (toContentString content .bothTrim).1)

/-- `safeLink`. -/
def safeLink (text : ContentValue) (url : Str) : ContentValue :=
  let p := toContentString text .bothTrim
  let safeText := if p.2 then p.1 else escapeMarkdownText p.1
  .safe ('[' :: safeText ++ S ("](") ++ sanitizeLinkDestination url ++ [')'])

/-- `safeImage`. -/
def safeImage (alt : ContentValue) (url : Str) : ContentValue :=
  let p := toContentString alt .bothTrim
  let safeAlt := if p.2 then p.1 else escapeMarkdownText p.1
  .safe ('!' :: '[' :: safeAlt ++ S ("](") ++ sanitizeLinkDestination url ++ [')'])

/-- Template-literal coercion used by the non-safe standalone formatters:
writers are rendered and trimmed, everything else is stringified. -/
def coerceInline : ContentValue → Str
  | .writer w => jsTrim (render w)
  | c => jsString c

/-- The non-safe standalone `bold`. -/
def bold (content : ContentValue) : Str :=
  S ("**") ++ coerceInline content ++ S ("**")

/-- The non-safe standalone `italic`. -/
def italic (content : ContentValue) : Str :=
  '*' :: coerceInline content ++ ['*']

/-- The non-safe standalone `code` (and its alias `inline`). -/
def code (content : ContentValue) : Str :=
  backtick :: coerceInline content ++ [backtick]

/-- The non-safe standalone `strike`. -/
def strike (content : ContentValue) : Str :=
  S ("~~") ++ coerceInline content ++ S ("~~")

/-- The non-safe standalone `link`. -/
def link (text : ContentValue) (url : Str) : Str :=
  '[' :: coerceInline text ++ S ("](") ++ url ++ [')']

/-- The non-safe standalone `image`. -/
def image (alt : ContentValue) (url : Str) : Str :=
  '!' :: '[' :: coerceInline alt ++ S ("](") ++ url ++ [')']

/-- `write(...content)`: join the values with spaces (escaping untrusted
values in safe mode, right-trimming nested writers), skip entirely when
both the writer and the joined text are empty, otherwise push the padded
line. -/
def write (w : Writer) (content : List ContentValue) : Writer :=
  if w.parts.isEmpty &&
     (joinSep [' '] (content.map (escapeUntrusted w.safeMode .endTrim))).isEmpty then w
  else
    pushWithPadding w
      (joinSep [' '] (content.map (escapeUntrusted w.safeMode .endTrim)) ++ [nl])

/-- Rendering of a nested-writer list item: full text, right-trimmed, every
line indented by two spaces. -/
def indentNestedWriter (iw : Writer) : Str :=
  joinSep [nl] ((splitOnNl (jsTrimEnd (render iw))).map fun line =>
    ' ' :: ' ' :: line)

/-- One item of the flat `unorderedList` call shape. -/
def unorderedListItemText (safe : Bool) (item : ContentValue) : Str :=
  match item with
  | .writer iw => indentNestedWriter iw
  | item => '-' :: ' ' :: escapeUntrusted safe .noTrim item

/-- `unorderedList(...items)` (flat call shape). -/
def unorderedList (w : Writer) (items : List ContentValue) : Writer :=
  pushWithPadding w
    (joinSep [nl] (items.map (unorderedListItemText w.safeMode)) ++ [nl, nl])

/-- One item of the builder call shape of `unorderedList` (the collected
items are coerced with a template literal, never escaped). -/
def unorderedListBuiltItemText (item : ContentValue) : Str :=
  match item with
  | .writer iw => indentNestedWriter iw
  | item => '-' :: ' ' :: jsString item

/-- `unorderedList(builder)` after the builder callback has collected its
items. -/
def unorderedListBuilt (w : Writer) (items : List ContentValue) : Writer :=
  pushWithPadding w
    (joinSep [nl] (items.map unorderedListBuiltItemText) ++ [nl, nl])

/-- The item mapping of the flat `orderedList` call shape, threading the
mutable `index` counter (only scalar items consume a number). -/
def orderedItemsFlat (safe : Bool) : Nat → List ContentValue → List Str
  | _, [] => []
  | index, item :: rest =>
    match item with
    | .writer iw => indentNestedWriter iw :: orderedItemsFlat safe index rest
    | item =>
      (natToStr index ++ '.' :: ' ' :: escapeUntrusted safe .noTrim item) ::
        orderedItemsFlat safe (index + 1) rest

/-- `orderedList(...items)` (flat call shape). -/
def orderedList (w : Writer) (items : List ContentValue) : Writer :=
  pushWithPadding w
    (joinSep [nl] (orderedItemsFlat w.safeMode 1 items) ++ [nl, nl])

/-- The item mapping of the builder call shape of `orderedList`. -/
def orderedItemsBuilt : Nat → List ContentValue → List Str
  | _, [] => []
  | index, item :: rest =>
    match item with
    | .writer iw => indentNestedWriter iw :: orderedItemsBuilt index rest
    | item => (natToStr index ++ '.' :: ' ' :: jsString item) :: orderedItemsBuilt (index + 1) rest

/-- `orderedList(builder)` after the builder callback has collected its
items. -/
def orderedListBuilt (w : Writer) (items : List ContentValue) : Writer :=
  pushWithPadding w
    (joinSep [nl] (orderedItemsBuilt 1 items) ++ [nl, nl])

/-- An argument of the flat `tasks` call shape: either a plain value or a
`[value, checked]` pair. -/
inductive TaskArg where
  | plain (c : ContentValue)
  | pair (c : ContentValue) (checked : Bool)
deriving DecidableEq, Repr

/-- The checkbox-and-text rendering of one flat `tasks` argument (every
value, including a nested writer, goes through a child `write`). -/
def taskItemText (w : Writer) : TaskArg → Str
  | .pair content checked =>
    (if checked then S ("[x] ") else S ("[ ] ")) ++
    jsTrimEnd (render (write (createChildWriter w) [content]))
  | .plain arg =>
    S ("[ ] ") ++ jsTrimEnd (render (write (createChildWriter w) [arg]))

/-- `tasks(...items)` (flat call shape). -/
def tasks (w : Writer) (args : List TaskArg) : Writer :=
  let items := args.map (taskItemText w)
  pushWithPadding w
    (joinSep [nl] (items.map fun item => '-' :: ' ' :: item) ++ [nl, nl])

/-- One item of the builder call shape of `tasks`. -/
def tasksBuiltItemText (item : ContentValue) : Str :=
  match item with
  | .writer iw => indentNestedWriter iw
  | item => '-' :: ' ' :: jsString item

/-- `tasks(builder)` after the builder callback has collected its items. -/
def tasksBuilt (w : Writer) (items : List ContentValue) : Writer :=
  pushWithPadding w
    (joinSep [nl] (items.map tasksBuiltItemText) ++ [nl, nl])

/-- The `item(...)` helper of the list builder: renders the content through
a child writer and collects the right-trimmed text. -/
def lbItem (w : Writer) (content : List ContentValue) : ContentValue :=
  .str (jsTrimEnd (render (write (createChildWriter w) content)))

/-- The nested `orderedList` helper of the list builder: builds a
self-contained child writer holding the sub-list and collects it. -/
def lbOrderedList (w : Writer) (items : List ContentValue) : ContentValue :=
  .writer (orderedList (createChildWriter w) items)

/-- `heading(level, ...content)`. -/
def heading (w : Writer) (level : Nat) (content : List Str) : Writer :=
  pushWithPadding w
    (List.replicate level '#' ++
      ' ' :: joinSep [' ']
        (content.map fun part => escapeUntrusted w.safeMode .noTrim (.str part)) ++
      [nl, nl])

/-- `blockquote(...lines)`. -/
def blockquote (w : Writer) (lines : List Str) : Writer :=
  pushWithPadding w
    (joinSep (S ("\n>\n"))
      (lines.map fun line => '>' :: ' ' :: escapeUntrusted w.safeMode .noTrim (.str line)) ++
     [nl, nl])

/-- `codeblock(language, content)` with a literal string body. -/
def codeblock (w : Writer) (language : Str) (content : Str) : Writer :=
  pushWithPadding w
    (S ("```") ++ language ++ nl :: content ++ nl :: S ("```") ++ [nl, nl])

/-- `codeblock(language, builder)`: the callback receives a fresh writer
created with `new ProseWriter()` (no options, hence not in safe mode), and
its rendered text is trimmed to become the fenced body. -/
def codeblockBuilder (w : Writer) (language : Str) (build : Writer → Writer) : Writer :=
  pushWithPadding w
    (S ("```") ++ language ++
      nl :: jsTrim (render (build (makeWriter none false))) ++
      nl :: S ("```") ++ [nl, nl])

/-- Modelled from the spec: the variant of the `codeblock` builder form
described by the specification, in which the fresh child writer inherits
the parent's safe-mode flag (the source instead constructs it with
`new ProseWriter()`).  Used only to compare against the source. -/
def codeblockBuilderInheritSpec (w : Writer) (language : Str) (build : Writer → Writer) : Writer :=
  pushWithPadding w
    (S ("```") ++ language ++
      nl :: jsTrim (render (build (createChildWriter w))) ++
      nl :: S ("```") ++ [nl, nl])

/-- `tag(name, content)` with string/writer content. -/
def tag (w : Writer) (name : Str) (content : ContentValue) : Writer :=
  pushWithPadding w
    ('<' :: name ++ '>' :: nl ::
      jsTrimEnd (escapeUntrusted w.safeMode .noTrim content) ++
      nl :: '<' :: '/' :: name ++ ['>', nl])

/-- The five callout keywords. -/
inductive CalloutKind where
  | NOTE
  | TIP
  | IMPORTANT
  | WARNING
  | CAUTION
deriving DecidableEq, Repr

/-- The keyword text of a callout kind. -/
def calloutKindStr : CalloutKind → Str
  | .NOTE => S ("NOTE")
  | .TIP => S ("TIP")
  | .IMPORTANT => S ("IMPORTANT")
  | .WARNING => S ("WARNING")
  | .CAUTION => S ("CAUTION")

/-- `callout(type, content)` with string content. -/
def callout (w : Writer) (kind : CalloutKind) (content : Str) : Writer :=
  pushWithPadding w
    (joinSep [nl]
      (((S ("[!") ++ calloutKindStr kind ++ [']']) ::
          splitOnNl (escapeUntrusted w.safeMode .noTrim (.str content))).map
        fun line => '>' :: ' ' :: line) ++
     [nl, nl])

/-- `comment(content)`. -/
def comment (w : Writer) (content : Str) : Writer :=
  pushWithPadding w (S ("<!-- ") ++ content ++ S (" -->") ++ [nl, nl])

/-- The `separator` getter. -/
def separator (w : Writer) : Writer :=
  pushWithPadding w (S ("---") ++ [nl, nl])

/-- `append(writer)`: pushes the other writer's padded rendered text, but
only when that text is non-empty (the padding getter is not even read
otherwise). -/
def append (w : Writer) (other : Writer) : Writer :=
  let content := render other
  if content.length > 0 then pushWithPadding w content
  else w

/-- The two structured-output formats. -/
inductive OutputFormat where
  | json
  | yaml
deriving DecidableEq, Repr

/-- A validation issue: a message and an optional path. -/
structure ValidationIssue where
  message : Str
  path : Option Str
deriving DecidableEq, Repr

/-- The result reported by a validator. -/
structure ValidationResult where
  valid : Bool
  issues : Option (List ValidationIssue)
deriving DecidableEq, Repr

/-- The data carried by a thrown `ValidationError`. -/
structure ValidationError where
  format : OutputFormat
  issues : List ValidationIssue
  label : Option Str
deriving DecidableEq, Repr

/-- The `unknown` data given to `json`/`yaml`: the model distinguishes
strings (the `typeof data === 'string'` checks) and gives other JavaScript
values enough structure to be concrete. -/
inductive JsValue where
  | vstr (s : Str)
  | vnum (n : Int)
  | vbool (b : Bool)
  | vnull
  | varr (xs : List JsValue)
  | vobj (fields : List (Str × JsValue))

/-- The options bag of `json`/`yaml`: an optional schema, an optional
injected validator, an optional label, and an optional YAML parser. -/
structure ValidationOptions where
  schema : Option JsValue
  validate : Option (OutputFormat → JsValue → Option JsValue → ValidationResult)
  label : Option Str
  parseYaml : Option (Str → Except Str JsValue)

/-- `validateOutput(format, data, options)`: no-op without a validator;
for JSON string data the string is first parsed (`JSON.parse` is a host
builtin, passed in as `parseJson`; a parse failure throws a
`ValidationError`); for YAML string data the supplied `parseYaml` is
applied when present (a thrown parser error likewise becomes a
`ValidationError`); then the validator runs and an invalid result throws
with its issues. -/
def validateOutput (parseJson : Str → Except Str JsValue)
    (format : OutputFormat) (data : JsValue) (options : ValidationOptions) :
    Except ValidationError Unit :=
  match options.validate with
  | none => .ok ()
  | some validate =>
    let step1 : Except ValidationError JsValue :=
      if format = .json then
        match data with
        | .vstr s =>
          match parseJson s with
          | .error msg =>
            .error { format := format
                     issues := [{ path := some (S ("$"))
                                  message := S ("Invalid JSON string: ") ++ msg }]
                     label := options.label }
          | .ok v => .ok v
        | d => .ok d
      else .ok data
    match step1 with
    | .error e => .error e
    | .ok vd1 =>
      let step2 : Except ValidationError JsValue :=
        if format = .yaml then
          match data with
          | .vstr s =>
            match options.parseYaml with
            | some parseYaml =>
              match parseYaml s with
              | .error msg =>
                .error { format := format
                         issues := [{ path := some (S ("$"))
                                      message := S ("Invalid YAML string: ") ++ msg }]
                         label := options.label }
              | .ok v => .ok v
            | none => .ok vd1
          | _ => .ok vd1
        else .ok vd1
      match step2 with
      | .error e => .error e
      | .ok validationData =>
        let result := validate format validationData options.schema
        if result.valid then .ok ()
        else .error { format := format
                      issues := result.issues.getD []
                      label := options.label }

/-- `json(data, options)`: validation runs first (an exception propagates
with the writer still in its pre-call state); on success a string is used
verbatim and any other value is serialized by `JSON.stringify` (a host
builtin, passed in as `stringifyJson`), then emitted as a `json` code
block. -/
def jsonMethod (parseJson : Str → Except Str JsValue)
    (stringifyJson : JsValue → Str) (w : Writer) (data : JsValue)
    (options : ValidationOptions) : Except (ValidationError × Writer) Writer :=
  match validateOutput parseJson .json data options with
  | .error e => .error (e, w)
  | .ok _ =>
    let jsonString := match data with | .vstr s => s | d => stringifyJson d
    .ok (codeblock w (S ("json")) jsonString)

/-- `yaml(data, options)`: same gating as `json`, with the repository's
`toYamlString` serializer treated at its interface (spec section 1 places
serialization of arbitrary data out of scope), passed in as
`yamlSerialize`. -/
def yamlMethod (parseJson : Str → Except Str JsValue)
    (yamlSerialize : JsValue → Str) (w : Writer) (data : JsValue)
    (options : ValidationOptions) : Except (ValidationError × Writer) Writer :=
  match validateOutput parseJson .yaml data options with
  | .error e => .error (e, w)
  | .ok _ =>
    let yamlString := match data with | .vstr s => s | d => yamlSerialize d
    .ok (codeblock w (S ("yaml")) yamlString)

/-!
## Shared lemmas about the padding engine
-/

/-- Replacing a false suppression flag by `false` is the identity. -/
theorem writer_eta (w : Writer) (h : w.skipNextPadding = false) :
    { w with skipNextPadding := false } = w := by
  cases w
  simp_all

/-- Reading the padding getter always leaves the flag cleared and the
fragment sequence untouched. -/
theorem paddingGet_snd (w : Writer) :
    (paddingGet w).2 = { w with skipNextPadding := false } := by
  unfold paddingGet
  by_cases h1 : (w.skipNextPadding || w.parts.isEmpty) = true
  · rw [if_pos h1]
  · have hs : w.skipNextPadding = false := by
      cases hs : w.skipNextPadding
      · rfl
      · simp [hs] at h1
    rw [if_neg h1, writer_eta w hs]
    by_cases h2 : endsWith (lastFragment w) [nl, nl] = true
    · rw [if_pos h2]
    · rw [if_neg h2]
      by_cases h3 : endsWith (lastFragment w) [nl] = true
      · rw [if_pos h3]
      · rw [if_neg h3]

/-- The padding prefix depends only on the fragment list and the flag. -/
theorem paddingGet_fst_congr (w1 w2 : Writer) (hp : w1.parts = w2.parts)
    (hf : w1.skipNextPadding = w2.skipNextPadding) :
    (paddingGet w1).1 = (paddingGet w2).1 := by
  have hl : lastFragment w1 = lastFragment w2 := by
    unfold lastFragment
    rw [hp]
  unfold paddingGet
  rw [hp, hf, hl]
  by_cases h1 : (w2.skipNextPadding || w2.parts.isEmpty) = true
  · rw [if_pos h1, if_pos h1]
  · rw [if_neg h1, if_neg h1]
    by_cases h2 : endsWith (lastFragment w2) [nl, nl] = true
    · rw [if_pos h2, if_pos h2]
    · rw [if_neg h2, if_neg h2]
      by_cases h3 : endsWith (lastFragment w2) [nl] = true
      · rw [if_pos h3, if_pos h3]
      · rw [if_neg h3, if_neg h3]

/-- The fragment list after a padded push. -/
theorem pushWithPadding_parts (w : Writer) (b : Str) :
    (pushWithPadding w b).parts = w.parts ++ [(paddingGet w).1 ++ b] := by
  unfold pushWithPadding
  rw [paddingGet_snd]

/-- A padded push leaves the suppression flag cleared. -/
theorem pushWithPadding_flag (w : Writer) (b : Str) :
    (pushWithPadding w b).skipNextPadding = false := by
  unfold pushWithPadding
  rw [paddingGet_snd]

/-- A padded push preserves the safe-mode flag. -/
theorem pushWithPadding_safeMode (w : Writer) (b : Str) :
    (pushWithPadding w b).safeMode = w.safeMode := by
  unfold pushWithPadding
  rw [paddingGet_snd]

/-- Rendering after a padded push appends the prefix and the body. -/
theorem render_pushWithPadding (w : Writer) (b : Str) :
    render (pushWithPadding w b) = render w ++ (paddingGet w).1 ++ b := by
  unfold render
  rw [pushWithPadding_parts]
  simp

/-- The padding prefix when the flag is clear and the last fragment ends
with exactly one newline. -/
theorem paddingGet_fst_single_nl (w : Writer) (h1 : w.parts ≠ [])
    (h2 : w.skipNextPadding = false)
    (h3 : endsWith (lastFragment w) [nl] = true)
    (h4 : endsWith (lastFragment w) [nl, nl] = false) :
    (paddingGet w).1 = [nl] := by
  unfold paddingGet
  have hne : w.parts.isEmpty = false := by
    cases hp : w.parts
    · exact absurd hp h1
    · simp [hp]
  simp [h2, hne, h3, h4]

/-- The padding prefix when the flag is clear and the last fragment ends
with a blank line. -/
theorem paddingGet_fst_double_nl (w : Writer) (h1 : w.parts ≠ [])
    (h2 : w.skipNextPadding = false)
    (h4 : endsWith (lastFragment w) [nl, nl] = true) :
    (paddingGet w).1 = [] := by
  unfold paddingGet
  have hne : w.parts.isEmpty = false := by
    cases hp : w.parts
    · exact absurd hp h1
    · simp [hp]
  simp [h2, hne, h4]

/-!
## C1: the padding rule
-/

/-- The padding rule exactly as the claim states it: empty when the
one-shot flag is set or nothing has been appended yet, empty when the last
stored fragment ends with two newlines, a single newline when it ends with
exactly one newline, two newlines otherwise. -/
def paddingSpec (w : Writer) : Str :=
  if w.skipNextPadding || w.parts.isEmpty then []
  else if endsWith (lastFragment w) [nl, nl] then []
  else if endsWith (lastFragment w) [nl] &&
          !endsWith (lastFragment w) [nl, nl] then [nl]
  else [nl, nl]

/-- C1.  Every append computes its padding prefix by the claimed rule
(`paddingSpec` transcribes the claim), and reading the getter always
leaves the one-shot suppression flag cleared while touching nothing else
of the writer. -/
theorem c1_padding_rule (w : Writer) :
    (paddingGet w).1 = paddingSpec w ∧
    (paddingGet w).2 = { w with skipNextPadding := false } := by
  refine ⟨?_, paddingGet_snd w⟩
  unfold paddingGet paddingSpec
  by_cases h : (w.skipNextPadding || w.parts.isEmpty) = true
  · simp [h]
  · simp only [h]
    by_cases h2 : endsWith (lastFragment w) [nl, nl] = true
    · simp [h2]
    · by_cases h3 : endsWith (lastFragment w) [nl] = true <;>
        simp [h2, h3]

/-!
## C10: appending an empty writer is a complete no-op
-/

/-- C10.  Appending a writer whose rendered text is empty leaves the
receiver completely unchanged: same state, same rendered text, and the
pending suppression flag is not consumed (the padding getter is never
read). -/
theorem c10_append_empty_writer (w s : Writer) (h : render s = []) :
    append w s = w ∧
    render (append w s) = render w ∧
    (append w s).skipNextPadding = w.skipNextPadding := by
  unfold append
  rw [h]
  simp

/-- Witness for C10 on a writer with a pending suppression flag. -/
theorem c10_append_empty_writer_witness :
    append (nextLine (write (makeWriter none false) [.str (S ("a"))]))
        (makeWriter none false) =
      nextLine (write (makeWriter none false) [.str (S ("a"))]) :=
  (c10_append_empty_writer
    (nextLine (write (makeWriter none false) [.str (S ("a"))]))
    (makeWriter none false) (by decide)).1

/-!
## C7: empty writes
-/

/-- C7.  On an empty writer both `write()` and `write('')` are no-ops; on
a writer with content whose last fragment ends with exactly one newline
(the state any plain `write` leaves behind), `write()` appends exactly one
blank line: the rendered text gains the two-character sequence of newlines,
and the boundary before the next written paragraph holds exactly one more
newline than it would have held without the empty write. -/
theorem c7_empty_write (safe : Bool) (w : Writer) (b : Str)
    (h1 : w.parts ≠ []) (h2 : w.skipNextPadding = false)
    (h3 : endsWith (lastFragment w) [nl] = true)
    (h4 : endsWith (lastFragment w) [nl, nl] = false)
    (h5 : w.safeMode = false) :
    render (write (makeWriter none safe) []) = [] ∧
    render (write (makeWriter none safe) [.str []]) = [] ∧
    render (write w []) = render w ++ [nl, nl] ∧
    render (write w [.str b]) = render w ++ nl :: b ++ [nl] ∧
    render (write (write w []) [.str b]) = render w ++ nl :: nl :: b ++ [nl] := by
  have hne : w.parts.isEmpty = false := by
    cases hp : w.parts
    · exact absurd hp h1
    · simp [hp]
  have hpad := paddingGet_fst_single_nl w h1 h2 h3 h4
  refine ⟨by cases safe <;> decide, by cases safe <;> decide, ?_, ?_, ?_⟩
  · show render (write w []) = render w ++ [nl, nl]
    unfold write
    simp only [joinSep, List.map_nil, hne, Bool.false_and, List.isEmpty_nil,
      if_neg Bool.false_ne_true]
    rw [render_pushWithPadding, hpad]
    simp
  · unfold write
    simp only [List.map_cons, List.map_nil, joinSep, toContentString, jsString,
      h5, hne, Bool.false_and, if_neg Bool.false_ne_true]
    rw [render_pushWithPadding, hpad]
    simp [escapeUntrusted, toContentString, jsString]
  · have hu : write w [] = pushWithPadding w [nl] := by
      unfold write
      simp only [joinSep, List.map_nil, hne, Bool.false_and,
        if_neg Bool.false_ne_true]
      rfl
    rw [hu]
    have hparts : (pushWithPadding w [nl]).parts = w.parts ++ [[nl, nl]] := by
      rw [pushWithPadding_parts, hpad]
      rfl
    unfold write
    have hne2 : (pushWithPadding w [nl]).parts.isEmpty = false := by
      rw [hparts]; simp
    simp only [List.map_cons, List.map_nil, joinSep, toContentString, jsString,
      pushWithPadding_safeMode, h5, hne2, Bool.false_and,
      if_neg Bool.false_ne_true]
    rw [render_pushWithPadding]
    have hlast : lastFragment (pushWithPadding w [nl]) = [nl, nl] := by
      unfold lastFragment
      rw [hparts]
      simp
    have hpad2 : (paddingGet (pushWithPadding w [nl])).1 = [] := by
      apply paddingGet_fst_double_nl
      · rw [hparts]; simp
      · exact pushWithPadding_flag w [nl]
      · rw [hlast]; decide
    rw [hpad2, render_pushWithPadding, hpad]
    simp [escapeUntrusted, toContentString, jsString]

/-- Witness for C7 at a concrete writer holding one written line. -/
theorem c7_empty_write_witness :
    render (write (write (makeWriter none false) [.str (S ("hello"))]) []) =
      render (write (makeWriter none false) [.str (S ("hello"))]) ++ [nl, nl] :=
  (c7_empty_write false (write (makeWriter none false) [.str (S ("hello"))])
    (S ("b")) (by decide) (by decide) (by decide) (by decide) (by decide)).2.2.1

/-!
## C4: validation gating of `json` / `yaml`
-/

/-- C4.  Without a `validate` option the data is serialized
unconditionally; with one, every validation failure (validator reporting
invalid, unparseable JSON string input, or a throwing YAML parser) raises
a `ValidationError` at the call site, and any raised error leaves the
writer exactly as it was — nothing is appended on failure. -/
theorem c4_validation_gating
    (parseJson : Str → Except Str JsValue)
    (stringifyJson yamlSerialize : JsValue → Str)
    (w : Writer) (data : JsValue) (options : ValidationOptions) :
    (options.validate = none →
      jsonMethod parseJson stringifyJson w data options =
        .ok (codeblock w (S ("json"))
          (match data with | .vstr s => s | d => stringifyJson d)) ∧
      yamlMethod parseJson yamlSerialize w data options =
        .ok (codeblock w (S ("yaml"))
          (match data with | .vstr s => s | d => yamlSerialize d))) ∧
    (∀ e w2, jsonMethod parseJson stringifyJson w data options = .error (e, w2) →
      w2 = w ∧ render w2 = render w) ∧
    (∀ e w2, yamlMethod parseJson yamlSerialize w data options = .error (e, w2) →
      w2 = w ∧ render w2 = render w) ∧
    (∀ v s msg, options.validate = some v → data = .vstr s →
      parseJson s = .error msg →
      ∃ e : ValidationError,
        jsonMethod parseJson stringifyJson w data options = .error (e, w)) ∧
    (∀ v s pv, options.validate = some v → data = .vstr s →
      parseJson s = .ok pv → (v .json pv options.schema).valid = false →
      ∃ e : ValidationError,
        jsonMethod parseJson stringifyJson w data options = .error (e, w)) ∧
    (∀ v, options.validate = some v → (∀ s, data ≠ .vstr s) →
      (v .json data options.schema).valid = false →
      ∃ e : ValidationError,
        jsonMethod parseJson stringifyJson w data options = .error (e, w)) ∧
    (∀ v s py msg, options.validate = some v → data = .vstr s →
      options.parseYaml = some py → py s = .error msg →
      ∃ e : ValidationError,
        yamlMethod parseJson yamlSerialize w data options = .error (e, w)) := by
  refine ⟨?_, ?_, ?_, ?_, ?_, ?_, ?_⟩
  · intro hv
    constructor
    · simp [jsonMethod, validateOutput, hv]
    · simp [yamlMethod, validateOutput, hv]
  · intro e w2 h
    unfold jsonMethod at h
    revert h
    split
    · intro h
      simp only [Except.error.injEq, Prod.mk.injEq] at h
      exact ⟨h.2.symm ▸ rfl, by rw [h.2]⟩
    · intro h
      exact absurd h (by simp)
  · intro e w2 h
    unfold yamlMethod at h
    revert h
    split
    · intro h
      simp only [Except.error.injEq, Prod.mk.injEq] at h
      exact ⟨h.2.symm ▸ rfl, by rw [h.2]⟩
    · intro h
      exact absurd h (by simp)
  · intro v s msg hv hd hp
    subst hd
    simp [jsonMethod, validateOutput, hv, hp]
  · intro v s pv hv hd hp hval
    subst hd
    simp [jsonMethod, validateOutput, hv, hp, hval]
  · intro v hv hns hval
    cases data with
    | vstr s => exact absurd rfl (hns s)
    | vnum n => simp [jsonMethod, validateOutput, hv, hval]
    | vbool b => simp [jsonMethod, validateOutput, hv, hval]
    | vnull => simp [jsonMethod, validateOutput, hv, hval]
    | varr xs => simp [jsonMethod, validateOutput, hv, hval]
    | vobj fs => simp [jsonMethod, validateOutput, hv, hval]
  · intro v s py msg hv hd hpy hp
    subst hd
    simp [yamlMethod, validateOutput, hv, hpy, hp]

/-- Witness for C4: a concrete always-failing validator makes `json` raise
and leaves the writer untouched. -/
theorem c4_validation_gating_witness :
    ∃ e : ValidationError,
      jsonMethod (fun s => Except.ok (JsValue.vstr s)) (fun _ => S ("0"))
        (write (makeWriter none false) [.str (S ("x"))])
        (JsValue.vnull)
        { schema := none
          validate := some (fun _ _ _ => { valid := false, issues := none })
          label := none
          parseYaml := none } =
      .error (e, write (makeWriter none false) [.str (S ("x"))]) :=
  (c4_validation_gating (fun s => Except.ok (JsValue.vstr s)) (fun _ => S ("0"))
    (fun _ => S ("0")) (write (makeWriter none false) [.str (S ("x"))])
    JsValue.vnull
    { schema := none
      validate := some (fun _ _ _ => { valid := false, issues := none })
      label := none
      parseYaml := none }).2.2.2.2.2.1
    (fun _ _ _ => { valid := false, issues := none }) rfl
    (fun _ h => JsValue.noConfusion h) rfl

/-!
## C6: link destination sanitization
-/

/-- Scheme body extraction after the first letter: the characters up to a
colon, provided all of them lie in the scheme character class. -/
def schemeAfter : Str → Option Str
  | [] => none
  | c :: cs =>
    if c = ':' then some []
    else if isSchemeChar c then (schemeAfter cs).map (c :: ·) else none

/-- The scheme of a (lowercased, trimmed) URL in the sense of the claim: a
leading lowercase letter followed by scheme characters and a colon. -/
def extractScheme : Str → Option Str
  | [] => none
  | c :: cs => if isAzLower c then (schemeAfter cs).map (c :: ·) else none

/-- The boolean colon search agrees with the scheme extraction. -/
theorem schemeColonAfter_iff (cs : Str) :
    schemeColonAfter cs = true ↔ (schemeAfter cs).isSome := by
  induction cs with
  | nil => simp [schemeColonAfter, schemeAfter]
  | cons c cs ih =>
    by_cases h1 : c = ':'
    · simp [schemeColonAfter, schemeAfter, h1]
    · by_cases h2 : isSchemeChar c = true
      · simpa [schemeColonAfter, schemeAfter, h1, h2] using ih
      · simp [schemeColonAfter, schemeAfter, h1, h2]

/-- The scheme-presence regex agrees with the scheme extraction. -/
theorem schemeRegexTest_iff (l : Str) :
    schemeRegexTest l = true ↔ (extractScheme l).isSome := by
  cases l with
  | nil => simp [schemeRegexTest, extractScheme]
  | cons c cs =>
    by_cases h : isAzLower c = true
    · simpa [schemeRegexTest, extractScheme, h] using schemeColonAfter_iff cs
    · simp [schemeRegexTest, extractScheme, h]

/-- Structure of a successful scheme-body extraction. -/
theorem schemeAfter_eq_some (cs s : Str) (h : schemeAfter cs = some s) :
    ∃ rest, cs = s ++ ':' :: rest := by
  induction cs generalizing s with
  | nil => simp [schemeAfter] at h
  | cons c cs ih =>
    by_cases h1 : c = ':'
    · subst h1
      simp [schemeAfter] at h
      subst h
      exact ⟨cs, rfl⟩
    · by_cases h2 : isSchemeChar c = true
      · simp [schemeAfter, h1, h2] at h
        obtain ⟨s0, hs0, hcons⟩ := h
        obtain ⟨rest, hrest⟩ := ih s0 hs0
        exact ⟨rest, by rw [← hcons, hrest]; rfl⟩
      · simp [schemeAfter, h1, h2] at h

/-- Scheme-body extraction of a well-formed scheme prefix. -/
theorem schemeAfter_append (s rest : Str) (h : ∀ c ∈ s, isSchemeChar c = true) :
    schemeAfter (s ++ ':' :: rest) = some s := by
  induction s with
  | nil => simp [schemeAfter]
  | cons c s ih =>
    have hc : isSchemeChar c = true := h c (List.mem_cons_self c s)
    have hcne : ¬c = ':' := by
      intro he
      rw [he] at hc
      exact absurd hc (by decide)
    simp [schemeAfter, hcne, hc, ih (fun d hd => h d (List.mem_cons_of_mem c hd))]

/-- Structure of a successful scheme extraction. -/
theorem extractScheme_eq_some (l s : Str) (h : extractScheme l = some s) :
    ∃ rest, l = s ++ ':' :: rest := by
  cases l with
  | nil => simp [extractScheme] at h
  | cons c cs =>
    by_cases hc : isAzLower c = true
    · simp only [extractScheme, if_pos hc, Option.map_eq_some'] at h
      obtain ⟨s0, hs0, hcons⟩ := h
      obtain ⟨rest, hrest⟩ := schemeAfter_eq_some cs s0 hs0
      exact ⟨rest, by rw [← hcons, hrest]; rfl⟩
    · simp [extractScheme, hc] at h

/-- The allowed-scheme regex holds exactly for the three allowed
schemes. -/
theorem allowedSchemeTest_iff (l : Str) :
    allowedSchemeTest l = true ↔
      extractScheme l = some (S ("http")) ∨
      extractScheme l = some (S ("https")) ∨
      extractScheme l = some (S ("mailto")) := by
  constructor
  · intro h
    simp only [allowedSchemeTest, Bool.or_eq_true] at h
    rcases h with (h | h) | h <;>
      obtain ⟨rest, hrest⟩ := List.isPrefixOf_iff_prefix.mp h <;> subst hrest
    · left
      show extractScheme ('h' :: (S ("ttp") ++ ':' :: rest)) = _
      rw [extractScheme, if_pos (by decide), schemeAfter_append _ _ (by decide)]
      rfl
    · right; left
      show extractScheme ('h' :: (S ("ttps") ++ ':' :: rest)) = _
      rw [extractScheme, if_pos (by decide), schemeAfter_append _ _ (by decide)]
      rfl
    · right; right
      show extractScheme ('m' :: (S ("ailto") ++ ':' :: rest)) = _
      rw [extractScheme, if_pos (by decide), schemeAfter_append _ _ (by decide)]
      rfl
  · intro h
    rcases h with h | h | h <;>
      obtain ⟨rest, hrest⟩ := extractScheme_eq_some l _ h <;>
      subst hrest <;>
      simp only [allowedSchemeTest, Bool.or_eq_true] <;>
      [exact Or.inl (Or.inl (List.isPrefixOf_iff_prefix.mpr ⟨rest, rfl⟩));
       exact Or.inl (Or.inr (List.isPrefixOf_iff_prefix.mpr ⟨rest, rfl⟩));
       exact Or.inr (List.isPrefixOf_iff_prefix.mpr ⟨rest, rfl⟩)]

/-- C6.  In safe mode, a URL whose scheme (after trimming, lowercased) is
anything other than http, https or mailto is replaced by the placeholder
destination in `link`/`image`; any other URL is percent-encoded with
literal parentheses backslash-escaped, and `https://example.com` passes
through unchanged. -/
theorem c6_link_sanitization (url : Str) (text : ContentValue) :
    (∀ s, extractScheme (toLowerStr (jsTrim url)) = some s →
      s ≠ S ("http") → s ≠ S ("https") → s ≠ S ("mailto") →
      sanitizeLinkDestination url = S ("#") ∧
      safeLink text url = .safe ('[' :: toSafeInlineText text ++ S ("](#)")) ∧
      safeImage text url =
        .safe ('!' :: '[' :: toSafeInlineText text ++ S ("](#)"))) ∧
    (extractScheme (toLowerStr (jsTrim url)) = none →
      sanitizeLinkDestination url = escapeLinkDestination (jsTrim url)) ∧
    (∀ s, extractScheme (toLowerStr (jsTrim url)) = some s →
      (s = S ("http") ∨ s = S ("https") ∨ s = S ("mailto")) →
      sanitizeLinkDestination url = escapeLinkDestination (jsTrim url)) ∧
    sanitizeLinkDestination (S ("https://example.com")) = S ("https://example.com") := by
  refine ⟨?_, ?_, ?_, by decide⟩
  · intro s hs h1 h2 h3
    have hreg : schemeRegexTest (toLowerStr (jsTrim url)) = true :=
      (schemeRegexTest_iff _).mpr (by rw [hs]; rfl)
    have hallow : allowedSchemeTest (toLowerStr (jsTrim url)) = false := by
      cases ha : allowedSchemeTest (toLowerStr (jsTrim url))
      · rfl
      · rcases (allowedSchemeTest_iff _).mp ha with h | h | h <;>
          rw [hs] at h <;> simp only [Option.some_inj] at h
        · exact absurd h h1
        · exact absurd h h2
        · exact absurd h h3
    have hsan : sanitizeLinkDestination url = S ("#") := by
      unfold sanitizeLinkDestination
      rw [hreg, hallow]
      rfl
    refine ⟨hsan, ?_, ?_⟩
    · unfold safeLink
      rw [hsan]
      have h9 : S ("](") ++ (S ("#") ++ [')']) = S ("](#)") := by decide
      simp only [toSafeInlineText, List.append_assoc, h9]
    · unfold safeImage
      rw [hsan]
      have h9 : S ("](") ++ (S ("#") ++ [')']) = S ("](#)") := by decide
      simp only [toSafeInlineText, List.append_assoc, h9]
  · intro hs
    have hreg : schemeRegexTest (toLowerStr (jsTrim url)) = false := by
      cases hr : schemeRegexTest (toLowerStr (jsTrim url))
      · rfl
      · have := (schemeRegexTest_iff _).mp hr
        rw [hs] at this
        exact absurd this (by simp)
    unfold sanitizeLinkDestination
    rw [hreg]
    rfl
  · intro s hs hin
    have hallow : allowedSchemeTest (toLowerStr (jsTrim url)) = true := by
      apply (allowedSchemeTest_iff _).mpr
      rcases hin with h | h | h <;> rw [hs, h]
      · exact Or.inl rfl
      · exact Or.inr (Or.inl rfl)
      · exact Or.inr (Or.inr rfl)
    unfold sanitizeLinkDestination
    rw [hallow]
    simp

/-- Witness for C6: a `javascript:` destination is replaced by the
placeholder. -/
theorem c6_link_sanitization_witness :
    sanitizeLinkDestination (S ("javascript:alert(1)")) = S ("#") :=
  ((c6_link_sanitization (S ("javascript:alert(1)")) (.str (S ("x")))).1
    (S ("javascript")) (by decide) (by decide) (by decide) (by decide)).1

/-!
## C3: the trusted marker and safe-mode idempotence
-/

/-- A fenced inline-code wrap is never empty. -/
theorem wrapInlineCode_ne_nil (x : Str) : wrapInlineCode x ≠ [] := by
  intro h
  simp only [wrapInlineCode, List.replicate_succ, List.cons_append] at h
  exact List.cons_ne_nil _ _ h

/-- On a trusted value, `write` renders identically whether the writer is
in safe mode or not. -/
theorem escapeUntrusted_trusted (safe : Bool) (trim : TrimMode) (v : Str) :
    escapeUntrusted safe trim (.safe v) = v := by
  simp [escapeUntrusted, toContentString]

theorem write_trusted_safe_irrelevant (w : Writer) (v : Str) (hv : v ≠ []) :
    render (write { w with safeMode := true } [.safe v]) =
      render (write { w with safeMode := false } [.safe v]) := by
  have hvF : v.isEmpty = false := by
    cases v
    · exact absurd rfl hv
    · rfl
  unfold write
  simp only [List.map_cons, List.map_nil, joinSep, escapeUntrusted_trusted, hvF,
    Bool.and_false, Bool.false_eq_true, if_neg, ite_false]
  rw [render_pushWithPadding, render_pushWithPadding,
    paddingGet_fst_congr { w with safeMode := true } { w with safeMode := false }
      rfl rfl]
  rfl

/-- The outputs of the six safe-mode inline formatters on a plain string. -/
def safeFormatterOutputs (s : Str) (u : Str) : List ContentValue :=
  [safeBold (.str s), safeItalic (.str s), safeStrike (.str s),
   safeInlineCode (.str s), safeLink (.str s) u, safeImage (.str s) u]

/-- C3 (amended).  Every safe inline formatter marks its result trusted,
and a trusted value is never re-escaped: feeding it into `write` renders
the same whether the writer is safe or not, and feeding it into
bold/italic/strike yields exactly the non-safe formatter's text.  The
remaining safe formatters also embed the trusted text verbatim, but their
results can differ from the non-safe ones for other reasons: `code`
re-wraps in an adaptive backtick fence and `link`/`image` still sanitize
the separately-supplied destination. -/
theorem c3_trusted_never_reescaped (s u u2 : Str) (w : Writer)
    (out : ContentValue) (hout : out ∈ safeFormatterOutputs s u) :
    (∃ v, out = .safe v) ∧
    render (write { w with safeMode := true } [out]) =
      render (write { w with safeMode := false } [out]) ∧
    jsString (safeBold out) = bold out ∧
    jsString (safeItalic out) = italic out ∧
    jsString (safeStrike out) = strike out ∧
    jsString (safeInlineCode out) = wrapInlineCode (jsString out) ∧
    jsString (safeLink out u2) =
      '[' :: jsString out ++ S ("](") ++ sanitizeLinkDestination u2 ++ [')'] ∧
    jsString (safeImage out u2) =
      '!' :: '[' :: jsString out ++ S ("](") ++ sanitizeLinkDestination u2 ++ [')'] := by
  have happ : ∀ (x y : Str), x ≠ [] → x ++ y ≠ [] := by
    intro x y hx h
    cases x
    · exact hx rfl
    · exact List.cons_ne_nil _ _ h
  simp only [safeFormatterOutputs, List.mem_cons, List.not_mem_nil, or_false] at hout
  rcases hout with h | h | h | h | h | h <;> subst h
  · exact ⟨⟨_, rfl⟩,
      write_trusted_safe_irrelevant w _
        (happ _ _ (happ _ _ (by decide))),
      rfl, rfl, rfl, rfl, rfl, rfl⟩
  · exact ⟨⟨_, rfl⟩,
      write_trusted_safe_irrelevant w _ (List.cons_ne_nil _ _),
      rfl, rfl, rfl, rfl, rfl, rfl⟩
  · exact ⟨⟨_, rfl⟩,
      write_trusted_safe_irrelevant w _
        (happ _ _ (happ _ _ (by decide))),
      rfl, rfl, rfl, rfl, rfl, rfl⟩
  · exact ⟨⟨_, rfl⟩,
      write_trusted_safe_irrelevant w _ (wrapInlineCode_ne_nil _),
      rfl, rfl, rfl, rfl, rfl, rfl⟩
  · exact ⟨⟨_, rfl⟩,
      write_trusted_safe_irrelevant w _ (List.cons_ne_nil _ _),
      rfl, rfl, rfl, rfl, rfl, rfl⟩
  · exact ⟨⟨_, rfl⟩,
      write_trusted_safe_irrelevant w _ (List.cons_ne_nil _ _),
      rfl, rfl, rfl, rfl, rfl, rfl⟩

/-- Witness for C3 at the bold output of a string needing escapes. -/
theorem c3_trusted_never_reescaped_witness :
    jsString (safeBold (safeBold (.str (S ("a*b"))))) =
      bold (safeBold (.str (S ("a*b")))) :=
  (c3_trusted_never_reescaped (S ("a*b")) (S ("u")) (S ("u2"))
    (makeWriter none false) (safeBold (.str (S ("a*b"))))
    (List.mem_cons_self _ _)).2.2.1

/-- Counterexample for C3 as stated: feeding the output of the safe inline
code formatter into the safe inline code formatter does not yield the same
text as feeding it into the non-safe `code` formatter (the adaptive fence
grows), even though no re-escaping happens. -/
theorem c3_counterexample :
    jsString (safeInlineCode (safeInlineCode (ContentValue.str (S ("a"))))) ≠
      code (safeInlineCode (ContentValue.str (S ("a")))) := by
  decide

/-!
## C5: the codeblock builder child writer
-/

/-- C5 (amended).  The `codeblock` builder form hands the callback a fresh
writer constructed by `new ProseWriter()` — always non-safe, regardless of
the parent's flag — trims the child's rendered text, and emits
padding + fence-with-language + newline + body + newline + fence + blank
line; consequently the emitted fragments do not depend on the parent's
safe-mode flag. -/
theorem c5_codeblock_builder_child (w : Writer) (language : Str)
    (build : Writer → Writer) :
    codeblockBuilder w language build =
      pushWithPadding w
        (S ("```") ++ language ++
          nl :: jsTrim (render (build (makeWriter none false))) ++
          nl :: S ("```") ++ [nl, nl]) ∧
    (codeblockBuilder { w with safeMode := true } language build).parts =
      (codeblockBuilder { w with safeMode := false } language build).parts ∧
    render (codeblockBuilder { w with safeMode := true } language build) =
      render (codeblockBuilder { w with safeMode := false } language build) := by
  refine ⟨rfl, ?_, ?_⟩
  · show (pushWithPadding { w with safeMode := true } _).parts =
      (pushWithPadding { w with safeMode := false } _).parts
    rw [pushWithPadding_parts, pushWithPadding_parts,
      paddingGet_fst_congr { w with safeMode := true }
        { w with safeMode := false } rfl rfl]
  · show render (pushWithPadding { w with safeMode := true } _) =
      render (pushWithPadding { w with safeMode := false } _)
    rw [render_pushWithPadding, render_pushWithPadding,
      paddingGet_fst_congr { w with safeMode := true }
        { w with safeMode := false } rfl rfl]
    rfl

/-- The builder callback used by the C5 counterexample. -/
def cbBuildEx : Writer → Writer := fun c => write c [.str (S ("a*b"))]

/-- Counterexample for C5 as stated: on a safe-mode parent the child
writer handed to the callback is not in safe mode, so the body is not
escaped, unlike what the claimed safe-flag inheritance would produce. -/
theorem c5_counterexample :
    render (codeblockBuilder (makeWriter none true) (S ("js")) cbBuildEx) =
      S ("```js\na*b\n```\n\n") ∧
    render (codeblockBuilderInheritSpec (makeWriter none true) (S ("js")) cbBuildEx) =
      S ("```js\na\\*b\n```\n\n") ∧
    codeblockBuilder (makeWriter none true) (S ("js")) cbBuildEx ≠
      codeblockBuilderInheritSpec (makeWriter none true) (S ("js")) cbBuildEx := by
  refine ⟨by decide, by decide, by decide⟩

/-!
## Splitting and joining lines
-/

/-- Splitting never produces an empty list of pieces. -/
theorem splitOnNl_ne_nil (s : Str) : splitOnNl s ≠ [] := by
  cases s with
  | nil => simp [splitOnNl]
  | cons c cs =>
    by_cases h : c = nl
    · simp [splitOnNl, h]
    · simp only [splitOnNl, if_neg h]
      split
      · simp
      · simp

/-- No piece produced by splitting contains a newline. -/
theorem splitOnNl_no_nl (s : Str) : ∀ p ∈ splitOnNl s, nl ∉ p := by
  induction s with
  | nil =>
    intro p hp
    simp [splitOnNl] at hp
    simp [hp]
  | cons c cs ih =>
    intro p hp
    by_cases h : c = nl
    · simp only [splitOnNl, if_pos h, List.mem_cons] at hp
      rcases hp with hp | hp
      · simp [hp]
      · exact ih p hp
    · simp only [splitOnNl, if_neg h] at hp
      rcases hsplit : splitOnNl cs with _ | ⟨l, ls⟩
      · exact absurd hsplit (splitOnNl_ne_nil cs)
      · rw [hsplit] at hp
        simp only [List.mem_cons] at hp
        rcases hp with hp | hp
        · subst hp
          intro hmem
          rcases List.mem_cons.mp hmem with hc | hl
          · exact h hc.symm
          · exact ih l (hsplit ▸ List.mem_cons_self l ls) hl
        · exact ih p (hsplit ▸ List.mem_cons_of_mem l hp)

/-- Splitting a newline-free string gives the string back as the sole
piece. -/
theorem splitOnNl_of_no_nl (p : Str) (h : nl ∉ p) : splitOnNl p = [p] := by
  induction p with
  | nil => rfl
  | cons c cs ih =>
    have hc : ¬c = nl := fun hc => h (hc ▸ List.mem_cons_self c cs)
    have hcs : nl ∉ cs := fun hm => h (List.mem_cons_of_mem c hm)
    simp only [splitOnNl, if_neg hc, ih hcs]

/-- Splitting after a newline-free prefix and an explicit newline. -/
theorem splitOnNl_append_nl (p t : Str) (h : nl ∉ p) :
    splitOnNl (p ++ nl :: t) = p :: splitOnNl t := by
  induction p with
  | nil => simp [splitOnNl]
  | cons c cs ih =>
    have hc : ¬c = nl := fun hc => h (hc ▸ List.mem_cons_self c cs)
    have hcs : nl ∉ cs := fun hm => h (List.mem_cons_of_mem c hm)
    simp only [List.cons_append, splitOnNl, if_neg hc, List.append_eq, ih hcs]

/-- Splitting inverts joining with a newline for newline-free pieces. -/
theorem splitOnNl_joinSep (ps : List Str) (hne : ps ≠ [])
    (h : ∀ p ∈ ps, nl ∉ p) : splitOnNl (joinSep [nl] ps) = ps := by
  induction ps with
  | nil => exact absurd rfl hne
  | cons p rest ih =>
    cases rest with
    | nil => exact splitOnNl_of_no_nl p (h p (List.mem_cons_self p []))
    | cons q qs =>
      have hp : nl ∉ p := h p (List.mem_cons_self p (q :: qs))
      show splitOnNl (p ++ [nl] ++ joinSep [nl] (q :: qs)) = p :: (q :: qs)
      rw [List.append_assoc, List.singleton_append]
      rw [splitOnNl_append_nl p _ hp]
      rw [ih (List.cons_ne_nil q qs) (fun r hr => h r (List.mem_cons_of_mem p hr))]

/-!
## C8: two-space indentation of nested writer items
-/

/-- C8 (amended).  In both call shapes of `unorderedList` and
`orderedList`, and in the builder shape of `tasks`, a nested-writer item
is rendered to its full text, right-trimmed, and re-emitted with every
line indented by exactly two spaces (and without consuming an ordered
number); in the flat shape of `tasks` a writer item is instead rendered
through a child `write` and placed after a checkbox without indentation. -/
theorem c8_nested_item_indentation (safe : Bool) (iw : Writer) (k : Nat)
    (rest : List ContentValue) :
    unorderedListItemText safe (.writer iw) = indentNestedWriter iw ∧
    unorderedListBuiltItemText (.writer iw) = indentNestedWriter iw ∧
    tasksBuiltItemText (.writer iw) = indentNestedWriter iw ∧
    orderedItemsFlat safe k (.writer iw :: rest) =
      indentNestedWriter iw :: orderedItemsFlat safe k rest ∧
    orderedItemsBuilt k (.writer iw :: rest) =
      indentNestedWriter iw :: orderedItemsBuilt k rest ∧
    splitOnNl (indentNestedWriter iw) =
      (splitOnNl (jsTrimEnd (render iw))).map (fun line => ' ' :: ' ' :: line) := by
  refine ⟨rfl, rfl, rfl, rfl, rfl, ?_⟩
  unfold indentNestedWriter
  apply splitOnNl_joinSep
  · intro h
    exact splitOnNl_ne_nil _ (List.map_eq_nil_iff.mp h)
  · intro p hp
    obtain ⟨line, hline, hmap⟩ := List.mem_map.mp hp
    subst hmap
    intro hmem
    rcases List.mem_cons.mp hmem with h | h
    · exact absurd h.symm (by decide)
    · rcases List.mem_cons.mp h with h | h
      · exact absurd h.symm (by decide)
      · exact splitOnNl_no_nl _ line hline h

/-- Counterexample for C8 as stated: in the flat shape of `tasks` a
two-line nested writer is emitted after the checkbox without any two-space
indentation — the indented rendering the claim prescribes appears nowhere
in the output. -/
theorem c8_counterexample :
    render (tasks (makeWriter none false)
        [.plain (.writer (makeWriter (some (S ("x\ny"))) false))]) =
      S ("- [ ] x\ny\n\n") ∧
    occursIn (indentNestedWriter (makeWriter (some (S ("x\ny"))) false))
      (render (tasks (makeWriter none false)
        [.plain (.writer (makeWriter (some (S ("x\ny"))) false))])) = false := by
  refine ⟨by decide, by decide⟩

/-!
## C9: ordered-list numbering
-/

/-- Flat ordered-list items over plain strings are numbered consecutively
from the starting index in render order. -/
theorem orderedItemsFlat_scalars (items : List Str) (k : Nat) :
    orderedItemsFlat false k (items.map .str) =
      items.mapIdx (fun i s => natToStr (k + i) ++ '.' :: ' ' :: s) := by
  induction items generalizing k with
  | nil => rfl
  | cons s rest ih =>
    simp only [List.map_cons, orderedItemsFlat, escapeUntrusted, toContentString,
      jsString, Bool.false_and, Bool.false_eq_true, if_neg, ite_false,
      List.mapIdx_cons]
    congr 1
    rw [ih (k + 1)]
    congr 1
    funext i s
    rw [show k + 1 + i = k + (i + 1) by omega]

/-- C9.  Scalar items of a single flat `orderedList` call are numbered
1, 2, 3, … in render order; a nested ordered sub-list collected by the
list builder is rendered as its own self-contained block (its numbering
restarting at 1) and then indented, without consuming an outer number. -/
theorem c9_ordered_numbering (w : Writer) (items : List Str) (k : Nat)
    (sub restItems : List ContentValue) (hsafe : w.safeMode = false) :
    orderedList w (items.map .str) =
      pushWithPadding w
        (joinSep [nl] (items.mapIdx fun i s => natToStr (1 + i) ++ '.' :: ' ' :: s) ++
          [nl, nl]) ∧
    orderedItemsBuilt k (lbOrderedList w sub :: restItems) =
      indentNestedWriter (orderedList (createChildWriter w) sub) ::
        orderedItemsBuilt k restItems ∧
    render (orderedList (write (makeWriter none false) [.str []])
        [.str (S ("x")), .str (S ("y"))]) = S ("1. x\n2. y\n\n") ∧
    render (orderedListBuilt (makeWriter none false)
        [lbItem (makeWriter none false) [.str (S ("a"))],
         lbItem (makeWriter none false) [.str (S ("b"))],
         lbOrderedList (makeWriter none false) [.str (S ("p")), .str (S ("q"))],
         lbItem (makeWriter none false) [.str (S ("c"))]]) =
      S ("1. a\n2. b\n  1. p\n  2. q\n3. c\n\n") := by
  refine ⟨?_, rfl, by decide, by decide⟩
  unfold orderedList
  rw [hsafe, orderedItemsFlat_scalars items 1]

/-- Witness for C9 at a concrete non-safe writer. -/
theorem c9_ordered_numbering_witness :
    render (orderedList (write (makeWriter none false) [.str []])
        [.str (S ("x")), .str (S ("y"))]) = S ("1. x\n2. y\n\n") :=
  (c9_ordered_numbering (makeWriter none false) [] 1 [] [] rfl).2.2.1

/-!
## Newline-run arithmetic for the paragraph-break invariant (C2)
-/

/-- `takeWhile` over an append ignores the right part when the left part
contains a failing element. -/
theorem takeWhile_append_stop (p : Char → Bool) (x y : Str)
    (h : ∃ c ∈ x, ¬p c = true) : (x ++ y).takeWhile p = x.takeWhile p := by
  induction x with
  | nil =>
    obtain ⟨c, hc, _⟩ := h
    exact absurd hc (List.not_mem_nil c)
  | cons a x ih =>
    by_cases ha : p a = true
    · obtain ⟨c, hc, hpc⟩ := h
      rcases List.mem_cons.mp hc with rfl | hc2
      · exact absurd ha hpc
      · simp [List.takeWhile_cons, ha, ih ⟨c, hc2, hpc⟩]
    · simp [List.takeWhile_cons, ha]

/-- A newline-free string has no trailing newline run. -/
theorem trailNL_of_no_nl (s : Str) (h : nl ∉ s) : trailNL s = 0 := by
  unfold trailNL
  cases hr : s.reverse with
  | nil => rfl
  | cons c t =>
    have hc : c ≠ nl := by
      intro he
      exact h (by
        rw [← List.mem_reverse, hr, he]
        exact List.mem_cons_self _ _)
    simp [List.takeWhile_cons, hc]

/-- The trailing run of an append ends inside a right part that itself has
no trailing newline. -/
theorem trailNL_append_right (a b : Str) (hb : b ≠ []) (h : trailNL b = 0) :
    trailNL (a ++ b) = 0 := by
  unfold trailNL at *
  rw [List.reverse_append]
  cases hbr : b.reverse with
  | nil => exact absurd (List.reverse_eq_nil_iff.mp hbr) hb
  | cons c t =>
    rw [hbr] at h
    have hc : ¬(c = nl) := by
      intro he
      rw [List.takeWhile_cons] at h
      simp [he] at h
    rw [List.cons_append, List.takeWhile_cons]
    simp [hc]

/-- Appending one newline adds one to the trailing run. -/
theorem trailNL_append_nl (s : Str) : trailNL (s ++ [nl]) = trailNL s + 1 := by
  unfold trailNL
  rw [List.reverse_append]
  simp [List.takeWhile_cons]

/-- Appending a blank line adds two to the trailing run. -/
theorem trailNL_append_nlnl (s : Str) :
    trailNL (s ++ [nl, nl]) = trailNL s + 2 := by
  unfold trailNL
  rw [List.reverse_append]
  simp [List.takeWhile_cons]

/-- The trailing run of an append is that of the right part when the right
part contains a non-newline character. -/
theorem trailNL_append_keep (a b : Str) (h : ∃ c ∈ b, c ≠ nl) :
    trailNL (a ++ b) = trailNL b := by
  unfold trailNL
  rw [List.reverse_append]
  congr 1
  apply takeWhile_append_stop
  obtain ⟨c, hc, hcne⟩ := h
  exact ⟨c, List.mem_reverse.mpr hc, by simp [hcne]⟩

/-- A leading newline extends the leading run by one. -/
theorem leadNL_cons_nl (b : Str) : leadNL (nl :: b) = leadNL b + 1 := by
  unfold leadNL
  simp [List.takeWhile_cons]

/-- A non-newline head gives an empty leading run. -/
theorem leadNL_cons_of_ne (c : Char) (b : Str) (h : c ≠ nl) :
    leadNL (c :: b) = 0 := by
  unfold leadNL
  simp [List.takeWhile_cons, h]

/-- The head of the remainder of `dropWhile` fails the predicate. -/
theorem dropWhile_head_false (p : Char → Bool) :
    ∀ (l : Str) (c : Char) (t : Str), l.dropWhile p = c :: t → p c = false := by
  intro l
  induction l with
  | nil => intro c t h; exact absurd h (by simp)
  | cons a l ih =>
    intro c t h
    by_cases ha : p a = true
    · rw [List.dropWhile_cons, if_pos ha] at h
      exact ih c t h
    · rw [List.dropWhile_cons, if_neg ha] at h
      cases h
      exact Bool.not_eq_true _ ▸ (by simpa using ha)

/-- A right-trimmed string has no trailing newline run. -/
theorem trailNL_trimEnd (s : Str) : trailNL (jsTrimEnd s) = 0 := by
  unfold trailNL jsTrimEnd
  rw [List.reverse_reverse]
  cases hd : s.reverse.dropWhile isWs with
  | nil => rfl
  | cons c t =>
    have hc : isWs c = false := dropWhile_head_false isWs s.reverse c t hd
    have hcne : ¬(c = nl) := by
      intro he
      rw [he] at hc
      exact absurd hc (by decide)
    simp [List.takeWhile_cons, hcne]

/-- Characters of the digit accumulator. -/
theorem natToStrGo_mem : ∀ (fuel n : Nat) (acc : Str) (c : Char),
    c ∈ natToStrGo fuel n acc →
    (∃ d, d < 10 ∧ c = Char.ofNat (48 + d)) ∨ c ∈ acc := by
  intro fuel
  induction fuel with
  | zero => intro n acc c h; exact Or.inr h
  | succ fuel ih =>
    intro n acc c h
    unfold natToStrGo at h
    by_cases hn : n < 10
    · rw [if_pos hn] at h
      rcases List.mem_cons.mp h with h | h
      · exact Or.inl ⟨n, hn, h⟩
      · exact Or.inr h
    · rw [if_neg hn] at h
      rcases ih (n / 10) _ c h with h | h
      · exact Or.inl h
      · rcases List.mem_cons.mp h with h | h
        · exact Or.inl ⟨n % 10, Nat.mod_lt n (by omega), h⟩
        · exact Or.inr h

/-- The digit accumulator never returns an empty string when it has fuel
or a non-empty accumulator. -/
theorem natToStrGo_ne_nil : ∀ (fuel n : Nat) (acc : Str),
    (fuel ≠ 0 ∨ acc ≠ []) → natToStrGo fuel n acc ≠ [] := by
  intro fuel
  induction fuel with
  | zero =>
    intro n acc h
    rcases h with h | h
    · exact absurd rfl h
    · exact h
  | succ fuel ih =>
    intro n acc h
    unfold natToStrGo
    by_cases hn : n < 10
    · rw [if_pos hn]; exact List.cons_ne_nil _ _
    · rw [if_neg hn]
      exact ih (n / 10) _ (Or.inr (List.cons_ne_nil _ _))

/-- Number strings are never empty. -/
theorem natToStr_ne_nil (n : Nat) : natToStr n ≠ [] :=
  natToStrGo_ne_nil (n + 1) n [] (Or.inl (Nat.succ_ne_zero n))

/-- Number strings contain no newline. -/
theorem natToStr_no_nl (n : Nat) : nl ∉ natToStr n := by
  intro hmem
  rcases natToStrGo_mem (n + 1) n [] nl hmem with ⟨d, hd, hc⟩ | h
  · interval_cases d <;> exact absurd hc (by decide)
  · exact absurd h (List.not_mem_nil nl)

/-- A join of non-empty pieces is non-empty. -/
theorem joinSep_ne_nil (sep : Str) (ps : List Str) (hne : ps ≠ [])
    (h : ∀ p ∈ ps, p ≠ []) : joinSep sep ps ≠ [] := by
  cases ps with
  | nil => exact absurd rfl hne
  | cons p rest =>
    cases rest with
    | nil => exact h p (List.mem_cons_self p [])
    | cons q qs =>
      show p ++ sep ++ joinSep sep (q :: qs) ≠ []
      have hp := h p (List.mem_cons_self p (q :: qs))
      cases p with
      | nil => exact absurd rfl hp
      | cons a as => simp

/-- A join of non-empty pieces without trailing newlines has no trailing
newline run, whatever the separator. -/
theorem trailNL_joinSep_zero (sep : Str) (ps : List Str) (hne : ps ≠ [])
    (h : ∀ p ∈ ps, p ≠ [] ∧ trailNL p = 0) :
    trailNL (joinSep sep ps) = 0 := by
  induction ps with
  | nil => exact absurd rfl hne
  | cons p rest ih =>
    cases rest with
    | nil => exact (h p (List.mem_cons_self p [])).2
    | cons q qs =>
      show trailNL (p ++ sep ++ joinSep sep (q :: qs)) = 0
      have hrest : ∀ r ∈ q :: qs, r ≠ [] ∧ trailNL r = 0 :=
        fun r hr => h r (List.mem_cons_of_mem p hr)
      have hJ := ih (List.cons_ne_nil q qs) hrest
      have hJne : joinSep sep (q :: qs) ≠ [] :=
        joinSep_ne_nil sep (q :: qs) (List.cons_ne_nil q qs)
          (fun r hr => (hrest r hr).1)
      rw [List.append_assoc]
      exact trailNL_append_right p _
        (by
          intro he
          exact hJne (List.append_eq_nil.mp he).2)
        (trailNL_append_right sep _ hJne hJ)

/-- A join headed by a piece with an explicit head starts with that
head. -/
theorem joinSep_head (sep : Str) (c : Char) (t : Str) (rest : List Str) :
    ∃ u, joinSep sep ((c :: t) :: rest) = c :: u := by
  cases rest with
  | nil => exact ⟨t, rfl⟩
  | cons q qs => exact ⟨t ++ sep ++ joinSep sep (q :: qs), by simp [joinSep]⟩

/-- Membership in a join comes from the separator or one of the pieces. -/
theorem mem_joinSep (sep : Str) (ps : List Str) (x : Char)
    (h : x ∈ joinSep sep ps) : x ∈ sep ∨ ∃ p ∈ ps, x ∈ p := by
  induction ps with
  | nil => exact absurd h (List.not_mem_nil x)
  | cons p rest ih =>
    cases rest with
    | nil => exact Or.inr ⟨p, List.mem_cons_self p [], h⟩
    | cons q qs =>
      have h2 : x ∈ p ++ sep ++ joinSep sep (q :: qs) := h
      rcases List.mem_append.mp h2 with h3 | h3
      · rcases List.mem_append.mp h3 with h4 | h4
        · exact Or.inr ⟨p, List.mem_cons_self p (q :: qs), h4⟩
        · exact Or.inl h4
      · rcases ih h3 with h4 | ⟨r, hr, hxr⟩
        · exact Or.inl h4
        · exact Or.inr ⟨r, List.mem_cons_of_mem p hr, hxr⟩

/-!
## The escaping layer preserves newline-freedom and non-emptiness
-/

/-- XML escaping introduces no newline. -/
theorem escapeXmlText_no_nl (s : Str) (h : nl ∉ s) : nl ∉ escapeXmlText s := by
  intro hmem
  obtain ⟨c, hc, hin⟩ := List.mem_flatMap.mp hmem
  have hcne : c ≠ nl := fun he => h (he ▸ hc)
  by_cases h1 : c = '&'
  · rw [if_pos h1] at hin
    exact absurd hin (by decide)
  · rw [if_neg h1] at hin
    by_cases h2 : c = '<'
    · rw [if_pos h2] at hin
      exact absurd hin (by decide)
    · rw [if_neg h2] at hin
      by_cases h3 : c = '>'
      · rw [if_pos h3] at hin
        exact absurd hin (by decide)
      · rw [if_neg h3] at hin
        exact hcne (List.mem_singleton.mp hin).symm

/-- XML escaping of a non-empty string is non-empty. -/
theorem escapeXmlText_ne_nil (s : Str) (h : s ≠ []) : escapeXmlText s ≠ [] := by
  cases s with
  | nil => exact absurd rfl h
  | cons c t =>
    show (if c = '&' then S ("&amp;")
          else if c = '<' then S ("&lt;")
          else if c = '>' then S ("&gt;")
          else [c]) ++ escapeXmlText t ≠ []
    intro he
    have := (List.append_eq_nil.mp he).1
    by_cases h1 : c = '&'
    · rw [if_pos h1] at this; exact absurd this (by decide)
    · rw [if_neg h1] at this
      by_cases h2 : c = '<'
      · rw [if_pos h2] at this; exact absurd this (by decide)
      · rw [if_neg h2] at this
        by_cases h3 : c = '>'
        · rw [if_pos h3] at this; exact absurd this (by decide)
        · rw [if_neg h3] at this; exact List.cons_ne_nil c [] this

/-- The backslash-escaping pass of `escapeMarkdownText`. -/
def mdEscapePass (s : Str) : Str :=
  s.flatMap fun c => if mdSpecial c then ['\\', c] else [c]

/-- Backslash escaping introduces no newline. -/
theorem mdEscapePass_no_nl (s : Str) (h : nl ∉ s) : nl ∉ mdEscapePass s := by
  intro hmem
  obtain ⟨c, hc, hin⟩ := List.mem_flatMap.mp hmem
  have hcne : c ≠ nl := fun he => h (he ▸ hc)
  by_cases h1 : mdSpecial c = true
  · rw [if_pos h1] at hin
    rcases List.mem_cons.mp hin with h2 | h2
    · exact absurd h2.symm (by decide)
    · exact hcne (List.mem_singleton.mp h2).symm
  · rw [if_neg h1] at hin
    exact hcne (List.mem_singleton.mp hin).symm

/-- Backslash escaping of a non-empty string is non-empty. -/
theorem mdEscapePass_ne_nil (s : Str) (h : s ≠ []) : mdEscapePass s ≠ [] := by
  cases s with
  | nil => exact absurd rfl h
  | cons c t =>
    show (if mdSpecial c then ['\\', c] else [c]) ++ mdEscapePass t ≠ []
    intro he
    have := (List.append_eq_nil.mp he).1
    by_cases h1 : mdSpecial c = true
    · rw [if_pos h1] at this; exact List.cons_ne_nil _ _ this
    · rw [if_neg h1] at this; exact List.cons_ne_nil _ _ this

/-- Line-start escaping introduces no newline. -/
theorem escapeMarkdownLineStart_no_nl (line : Str) (h : nl ∉ line) :
    nl ∉ escapeMarkdownLineStart line := by
  have hws : nl ∉ line.takeWhile isWs :=
    fun hm => h ((List.takeWhile_sublist _).subset hm)
  have hrest : nl ∉ line.dropWhile isWs :=
    fun hm => h ((List.dropWhile_sublist _).subset hm)
  have hmarker : ∀ (hm : nl ∈ line.takeWhile isWs ++ '\\' :: line.dropWhile isWs),
      False := by
    intro hm
    rcases List.mem_append.mp hm with hm | hm
    · exact hws hm
    · rcases List.mem_cons.mp hm with hm | hm
      · exact absurd hm.symm (by decide)
      · exact hrest hm
  simp only [escapeMarkdownLineStart]
  split
  · exact hmarker
  · split
    · exact hmarker
    · split
      · exact hmarker
      · split
        · intro hm
          rcases List.mem_append.mp hm with hm | hm
          · rcases List.mem_append.mp hm with hm | hm
            · exact hws hm
            · exact hrest ((List.takeWhile_sublist _).subset hm)
          · rcases List.mem_cons.mp hm with hm | hm
            · exact absurd hm.symm (by decide)
            · rcases List.mem_cons.mp hm with hm | hm
              · exact absurd hm.symm (by decide)
              · exact hrest ((List.drop_subset _ _) hm)
        · exact h

/-- Line-start escaping of a non-empty line is non-empty. -/
theorem escapeMarkdownLineStart_ne_nil (line : Str) (h : line ≠ []) :
    escapeMarkdownLineStart line ≠ [] := by
  have hmarker : line.takeWhile isWs ++ '\\' :: line.dropWhile isWs ≠ [] := by
    intro he
    exact List.cons_ne_nil _ _ (List.append_eq_nil.mp he).2
  simp only [escapeMarkdownLineStart]
  split
  · exact hmarker
  · split
    · exact hmarker
    · split
      · exact hmarker
      · split
        · intro he
          exact List.cons_ne_nil _ _ (List.append_eq_nil.mp he).2
        · exact h

/-- Markdown text escaping of a newline-free string reduces to the single
line-start pass over the character-escaped text. -/
theorem escapeMarkdownText_of_no_nl (s : Str) (h : nl ∉ s) :
    escapeMarkdownText s =
      escapeMarkdownLineStart (mdEscapePass (escapeXmlText s)) := by
  have hesc : nl ∉ mdEscapePass (escapeXmlText s) :=
    mdEscapePass_no_nl _ (escapeXmlText_no_nl s h)
  show joinSep [nl]
      ((splitOnNl (mdEscapePass (escapeXmlText s))).map escapeMarkdownLineStart) = _
  rw [splitOnNl_of_no_nl _ hesc]
  rfl

/-- Markdown text escaping introduces no newline into a newline-free
string. -/
theorem escapeMarkdownText_no_nl (s : Str) (h : nl ∉ s) :
    nl ∉ escapeMarkdownText s := by
  rw [escapeMarkdownText_of_no_nl s h]
  exact escapeMarkdownLineStart_no_nl _
    (mdEscapePass_no_nl _ (escapeXmlText_no_nl s h))

/-- Markdown text escaping keeps a newline-free non-empty string
non-empty. -/
theorem escapeMarkdownText_ne_nil (s : Str) (hnl : nl ∉ s) (h : s ≠ []) :
    escapeMarkdownText s ≠ [] := by
  rw [escapeMarkdownText_of_no_nl s hnl]
  exact escapeMarkdownLineStart_ne_nil _
    (mdEscapePass_ne_nil _ (escapeXmlText_ne_nil s h))

/-!
## The writer invariant behind C2
-/

/-- A prefix test for a single leading newline. -/
theorem isPrefixOf_nl (r : Str) :
    ([nl].isPrefixOf r) = true ↔ 1 ≤ (r.takeWhile (· = nl)).length := by
  cases r with
  | nil => simp [List.isPrefixOf]
  | cons c t =>
    by_cases h : c = nl
    · subst h
      simp [List.isPrefixOf, List.takeWhile_cons]
    · simp [List.isPrefixOf, List.takeWhile_cons, h, Ne.symm h]

/-- A prefix test for two leading newlines. -/
theorem isPrefixOf_nlnl (r : Str) :
    ([nl, nl].isPrefixOf r) = true ↔ 2 ≤ (r.takeWhile (· = nl)).length := by
  cases r with
  | nil => simp [List.isPrefixOf]
  | cons c t =>
    by_cases h : c = nl
    · subst h
      show ((nl == nl) && [nl].isPrefixOf t) = true ↔ _
      simp only [beq_self_eq_true, Bool.true_and]
      rw [isPrefixOf_nl t]
      simp [List.takeWhile_cons]
    · simp [List.isPrefixOf, List.takeWhile_cons, h, Ne.symm h]

/-- `endsWith "\n"` detects a non-empty trailing newline run. -/
theorem endsWith_nl_iff (s : Str) :
    endsWith s [nl] = true ↔ 1 ≤ trailNL s := by
  show ([nl].isSuffixOf s) = true ↔ _
  rw [List.isSuffixOf]
  exact isPrefixOf_nl s.reverse

/-- `endsWith "\n\n"` detects a trailing run of at least two newlines. -/
theorem endsWith_nlnl_iff (s : Str) :
    endsWith s [nl, nl] = true ↔ 2 ≤ trailNL s := by
  show ([nl, nl].isSuffixOf s) = true ↔ _
  rw [List.isSuffixOf]
  exact isPrefixOf_nlnl s.reverse

/-- The last fragment is the `getLast?` of the fragment list. -/
theorem lastFragment_getLast (w : Writer) (h : w.parts ≠ []) :
    w.parts.getLast? = some (lastFragment w) := by
  unfold lastFragment
  rw [List.getLastD_eq_getLast?, List.getLast?_eq_getLast _ h]
  rfl

/-- The last fragment of a non-empty fragment list is one of the
fragments. -/
theorem lastFragment_mem (w : Writer) (h : w.parts ≠ []) :
    lastFragment w ∈ w.parts := by
  unfold lastFragment
  rw [List.getLastD_eq_getLast?, List.getLast?_eq_getLast _ h]
  exact List.getLast_mem h

/-- The padding prefix when the last fragment carries exactly one trailing
newline. -/
theorem paddingGet_fst_of_trail_one (w : Writer) (h1 : w.parts ≠ [])
    (h2 : w.skipNextPadding = false) (ht : trailNL (lastFragment w) = 1) :
    (paddingGet w).1 = [nl] := by
  apply paddingGet_fst_single_nl w h1 h2
  · exact (endsWith_nl_iff _).mpr (by omega)
  · cases he : endsWith (lastFragment w) [nl, nl]
    · rfl
    · have := (endsWith_nlnl_iff _).mp he
      omega

/-- The padding prefix when the last fragment carries exactly two trailing
newlines. -/
theorem paddingGet_fst_of_trail_two (w : Writer) (h1 : w.parts ≠ [])
    (h2 : w.skipNextPadding = false) (ht : trailNL (lastFragment w) = 2) :
    (paddingGet w).1 = [] :=
  paddingGet_fst_double_nl w h1 h2 ((endsWith_nlnl_iff _).mpr (by omega))

/-- A block body as every appender produces it: it starts with a
non-newline character and carries one or two trailing newlines. -/
def GoodBody (b : Str) : Prop :=
  (∃ c t, b = c :: t ∧ c ≠ nl) ∧ (trailNL b = 1 ∨ trailNL b = 2)

/-- The engine invariant: suppression flag clear, every fragment contains
a non-newline character and ends with one or two newlines, and every
adjacent fragment boundary carries exactly two newlines. -/
def WriterInv (w : Writer) : Prop :=
  w.skipNextPadding = false ∧
  (∀ p ∈ w.parts, (∃ c ∈ p, c ≠ nl) ∧ (trailNL p = 1 ∨ trailNL p = 2)) ∧
  List.Chain' (fun p q => trailNL p + leadNL q = 2) w.parts

/-- The empty writer satisfies the invariant. -/
theorem WriterInv_empty (safe : Bool) : WriterInv (makeWriter none safe) := by
  refine ⟨rfl, ?_, ?_⟩
  · intro p hp
    exact absurd hp (List.not_mem_nil p)
  · exact List.chain'_nil

/-- Pushing a good body through the padding engine preserves the
invariant: the computed prefix tops the boundary up to exactly two
newlines. -/
theorem WriterInv_push (w : Writer) (b : Str) (hw : WriterInv w)
    (hb : GoodBody b) : WriterInv (pushWithPadding w b) := by
  obtain ⟨hflag, hparts, hchain⟩ := hw
  obtain ⟨⟨c, t, hbct, hcnl⟩, htr⟩ := hb
  have hbne : b ≠ [] := by rw [hbct]; exact List.cons_ne_nil c t
  have hbex : ∃ d ∈ b, d ≠ nl := ⟨c, by rw [hbct]; exact List.mem_cons_self c t, hcnl⟩
  have hlead : leadNL b = 0 := by rw [hbct]; exact leadNL_cons_of_ne c t hcnl
  by_cases hp : w.parts = []
  · have hpad : (paddingGet w).1 = [] := by
      unfold paddingGet
      rw [hflag, hp]
      rfl
    refine ⟨pushWithPadding_flag w b, ?_, ?_⟩
    · intro p hpmem
      rw [pushWithPadding_parts, hpad, hp] at hpmem
      simp only [List.nil_append, List.mem_singleton] at hpmem
      subst hpmem
      exact ⟨hbex, htr⟩
    · rw [pushWithPadding_parts, hpad, hp]
      simp
  · obtain ⟨hlex, hltr⟩ := hparts _ (lastFragment_mem w hp)
    have hq : ∀ q, (paddingGet w).1 ++ b = q →
        ((∃ d ∈ q, d ≠ nl) ∧ (trailNL q = 1 ∨ trailNL q = 2)) ∧
          trailNL (lastFragment w) + leadNL q = 2 := by
      intro q hqe
      rcases hltr with h1 | h2
      · rw [paddingGet_fst_of_trail_one w hp hflag h1] at hqe
        subst hqe
        refine ⟨⟨?_, ?_⟩, ?_⟩
        · obtain ⟨d, hd, hdne⟩ := hbex
          exact ⟨d, by simp [hd], hdne⟩
        · rw [trailNL_append_keep [nl] b hbex]
          exact htr
        · rw [List.singleton_append, leadNL_cons_nl, hlead, h1]
      · rw [paddingGet_fst_of_trail_two w hp hflag h2] at hqe
        subst hqe
        refine ⟨⟨?_, ?_⟩, ?_⟩
        · simpa using hbex
        · simpa using htr
        · simp only [List.nil_append]
          rw [hlead, h2]
    obtain ⟨⟨hqex, hqtr⟩, hqbound⟩ := hq _ rfl
    refine ⟨pushWithPadding_flag w b, ?_, ?_⟩
    · intro p hpmem
      rw [pushWithPadding_parts] at hpmem
      rcases List.mem_append.mp hpmem with hpm | hpm
      · exact hparts p hpm
      · rw [List.mem_singleton.mp hpm]
        exact ⟨hqex, hqtr⟩
    · rw [pushWithPadding_parts]
      rw [List.chain'_append]
      refine ⟨hchain, List.chain'_singleton _, ?_⟩
      intro x hx y hy
      rw [lastFragment_getLast w hp] at hx
      simp only [Option.mem_def, Option.some_inj] at hx
      simp only [List.head?_cons, Option.mem_def, Option.some_inj] at hy
      rw [← hx, ← hy]
      exact hqbound

/-!
## The block operations quantified over by C2
-/

/-- One engine-controlled append: `write` with plain string arguments and
each block appender with string (or, for lists, scalar-or-writer)
arguments. -/
inductive BlockOp where
  | writeOp (args : List Str)
  | unorderedOp (items : List ContentValue)
  | orderedOp (items : List ContentValue)
  | tasksOp (args : List TaskArg)
  | headingOp (level : Nat) (content : List Str)
  | blockquoteOp (lines : List Str)
  | codeblockOp (language : Str) (content : Str)
  | tagOp (name : Str) (content : Str)
  | calloutOp (kind : CalloutKind) (content : Str)
  | commentOp (content : Str)
  | separatorOp

/-- Running one block operation on a writer. -/
def applyOp (w : Writer) : BlockOp → Writer
  | .writeOp args => write w (args.map .str)
  | .unorderedOp items => unorderedList w items
  | .orderedOp items => orderedList w items
  | .tasksOp args => tasks w args
  | .headingOp level content => heading w level content
  | .blockquoteOp lines => blockquote w lines
  | .codeblockOp language content => codeblock w language content
  | .tagOp name content => tag w name (.str content)
  | .calloutOp kind content => callout w kind content
  | .commentOp content => comment w content
  | .separatorOp => separator w

/-- A controlled scalar list item: a newline-free plain or trusted string,
or a nested writer. -/
def scalarOk : ContentValue → Prop
  | .str s => nl ∉ s
  | .safe s => nl ∉ s
  | .writer _ => True
  | .num _ => False
  | .bool _ => False

instance (i : ContentValue) : Decidable (scalarOk i) :=
  match i with
  | .str s => inferInstanceAs (Decidable (nl ∉ s))
  | .safe s => inferInstanceAs (Decidable (nl ∉ s))
  | .writer _ => inferInstanceAs (Decidable True)
  | .num _ => inferInstanceAs (Decidable False)
  | .bool _ => inferInstanceAs (Decidable False)

/-- The controlled-input side conditions of C2: non-degenerate calls whose
direct string payloads carry no raw newlines (nested writers and code /
tag / callout / comment bodies are unrestricted). -/
def WFOp : BlockOp → Prop
  | .writeOp args => args ≠ [] ∧ ∀ a ∈ args, a ≠ [] ∧ nl ∉ a
  | .unorderedOp items => items ≠ [] ∧ ∀ i ∈ items, scalarOk i
  | .orderedOp items => items ≠ [] ∧ ∀ i ∈ items, scalarOk i
  | .tasksOp args => args ≠ []
  | .headingOp _ content => ∀ a ∈ content, nl ∉ a
  | .blockquoteOp lines => lines ≠ [] ∧ ∀ a ∈ lines, nl ∉ a
  | .codeblockOp _ _ => True
  | .tagOp _ _ => True
  | .calloutOp _ _ => True
  | .commentOp _ => True
  | .separatorOp => True

instance (op : BlockOp) : Decidable (WFOp op) :=
  match op with
  | .writeOp _ => inferInstanceAs (Decidable (_ ∧ _))
  | .unorderedOp _ => inferInstanceAs (Decidable (_ ∧ _))
  | .orderedOp _ => inferInstanceAs (Decidable (_ ∧ _))
  | .tasksOp args => inferInstanceAs (Decidable (args ≠ []))
  | .headingOp _ content => inferInstanceAs (Decidable (∀ a ∈ content, nl ∉ a))
  | .blockquoteOp _ => inferInstanceAs (Decidable (_ ∧ _))
  | .codeblockOp _ _ => inferInstanceAs (Decidable True)
  | .tagOp _ _ => inferInstanceAs (Decidable True)
  | .calloutOp _ _ => inferInstanceAs (Decidable True)
  | .commentOp _ => inferInstanceAs (Decidable True)
  | .separatorOp => inferInstanceAs (Decidable True)

/-- The method body pattern on a plain string reduces to conditional
escaping. -/
theorem escapeUntrusted_str (safe : Bool) (trim : TrimMode) (s : Str) :
    escapeUntrusted safe trim (.str s) =
      if safe = true then escapeMarkdownText s else s := by
  simp [escapeUntrusted, toContentString, jsString]

/-- Safe-mode-conditional escaping introduces no newline. -/
theorem escIf_no_nl (safe : Bool) (s : Str) (h : nl ∉ s) :
    nl ∉ (if safe = true then escapeMarkdownText s else s) := by
  cases safe
  · simpa using h
  · simpa using escapeMarkdownText_no_nl s h

/-- Safe-mode-conditional escaping keeps non-emptiness. -/
theorem escIf_ne_nil (safe : Bool) (s : Str) (hnl : nl ∉ s) (h : s ≠ []) :
    (if safe = true then escapeMarkdownText s else s) ≠ [] := by
  cases safe
  · simpa using h
  · simpa using escapeMarkdownText_ne_nil s hnl h

/-- The indented rendering of a nested writer item: non-empty, without a
trailing newline, starting with a space. -/
theorem indentNestedWriter_props (iw : Writer) :
    indentNestedWriter iw ≠ [] ∧ trailNL (indentNestedWriter iw) = 0 ∧
      ∃ u, indentNestedWriter iw = ' ' :: u := by
  have hpieces : ∀ p ∈ (splitOnNl (jsTrimEnd (render iw))).map
      (fun line => ' ' :: ' ' :: line), p ≠ [] ∧ trailNL p = 0 := by
    intro p hp
    obtain ⟨line, hline, hmap⟩ := List.mem_map.mp hp
    subst hmap
    refine ⟨List.cons_ne_nil _ _, trailNL_of_no_nl _ ?_⟩
    intro hm
    rcases List.mem_cons.mp hm with hm | hm
    · exact absurd hm.symm (by decide)
    · rcases List.mem_cons.mp hm with hm | hm
      · exact absurd hm.symm (by decide)
      · exact splitOnNl_no_nl _ line hline hm
  have hne_list : (splitOnNl (jsTrimEnd (render iw))).map
      (fun line => ' ' :: ' ' :: line) ≠ [] := by
    intro h
    exact splitOnNl_ne_nil _ (List.map_eq_nil_iff.mp h)
  refine ⟨joinSep_ne_nil _ _ hne_list (fun p hp => (hpieces p hp).1),
    trailNL_joinSep_zero _ _ hne_list hpieces, ?_⟩
  show ∃ u, joinSep [nl] ((splitOnNl (jsTrimEnd (render iw))).map
    (fun line => ' ' :: ' ' :: line)) = ' ' :: u
  cases hsp : splitOnNl (jsTrimEnd (render iw)) with
  | nil => exact absurd hsp (splitOnNl_ne_nil _)
  | cons l0 ls =>
    rw [List.map_cons]
    exact joinSep_head [nl] ' ' (' ' :: l0) _

/-- A flat unordered-list item renders non-empty, without a trailing
newline, and with a non-newline head. -/
theorem unorderedListItemText_props (safe : Bool) (i : ContentValue)
    (h : scalarOk i) :
    unorderedListItemText safe i ≠ [] ∧
    trailNL (unorderedListItemText safe i) = 0 ∧
    ∃ c u, unorderedListItemText safe i = c :: u ∧ c ≠ nl := by
  cases i with
  | str s =>
    have hs : nl ∉ s := h
    simp only [unorderedListItemText, escapeUntrusted_str]
    refine ⟨List.cons_ne_nil _ _, trailNL_of_no_nl _ ?_, '-', _, rfl, by decide⟩
    intro hm
    rcases List.mem_cons.mp hm with hm | hm
    · exact absurd hm.symm (by decide)
    · rcases List.mem_cons.mp hm with hm | hm
      · exact absurd hm.symm (by decide)
      · exact escIf_no_nl safe s hs hm
  | safe s =>
    have hs : nl ∉ s := h
    simp only [unorderedListItemText, escapeUntrusted_trusted]
    refine ⟨List.cons_ne_nil _ _, trailNL_of_no_nl _ ?_, '-', _, rfl, by decide⟩
    intro hm
    rcases List.mem_cons.mp hm with hm | hm
    · exact absurd hm.symm (by decide)
    · rcases List.mem_cons.mp hm with hm | hm
      · exact absurd hm.symm (by decide)
      · exact hs hm
  | writer iw =>
    obtain ⟨h1, h2, u, h3⟩ := indentNestedWriter_props iw
    exact ⟨h1, h2, ' ', u, h3, by decide⟩
  | num n => exact h.elim
  | bool b => exact h.elim

/-- The joined, optionally escaped `write` arguments of a controlled call
form a non-empty newline-free line. -/
theorem write_join_props (safe : Bool) (args : List Str) (hargs : args ≠ [])
    (hprops : ∀ a ∈ args, a ≠ [] ∧ nl ∉ a) :
    joinSep [' '] ((args.map ContentValue.str).map (escapeUntrusted safe .endTrim)) ≠ [] ∧
    nl ∉ joinSep [' '] ((args.map ContentValue.str).map (escapeUntrusted safe .endTrim)) := by
  constructor
  · apply joinSep_ne_nil
    · intro h
      rcases List.map_eq_nil_iff.mp h with h2
      exact hargs (List.map_eq_nil_iff.mp h2)
    · intro p hp
      obtain ⟨c, hc, hmap⟩ := List.mem_map.mp hp
      obtain ⟨a, ha, hmap2⟩ := List.mem_map.mp hc
      subst hmap
      subst hmap2
      rw [escapeUntrusted_str]
      exact escIf_ne_nil safe a (hprops a ha).2 (hprops a ha).1
  · intro hm
    rcases mem_joinSep _ _ _ hm with hm | ⟨p, hp, hmp⟩
    · exact absurd hm (by decide)
    · obtain ⟨c, hc, hmap⟩ := List.mem_map.mp hp
      obtain ⟨a, ha, hmap2⟩ := List.mem_map.mp hc
      subst hmap
      subst hmap2
      rw [escapeUntrusted_str] at hmp
      exact escIf_no_nl safe a (hprops a ha).2 hmp

/-!
## C2: the paragraph-break invariant over engine-controlled appends
-/

/-- A non-empty list is not `isEmpty`. -/
theorem isEmpty_false_of_ne_nil {α : Type} (l : List α) (h : l ≠ []) :
    l.isEmpty = false := by
  cases l with
  | nil => exact absurd rfl h
  | cons a t => rfl

/-- `takeWhile` ignores a final failing element. -/
theorem takeWhile_append_single_false (p : Char → Bool) (x : Str) (c : Char)
    (hc : p c = false) : (x ++ [c]).takeWhile p = x.takeWhile p := by
  induction x with
  | nil =>
    show List.takeWhile p [c] = List.takeWhile p []
    simp [List.takeWhile_cons, hc]
  | cons a x ih =>
    by_cases ha : p a = true
    · simp [List.takeWhile_cons, ha, ih]
    · simp [List.takeWhile_cons, ha]

/-- Prepending a non-newline character leaves the trailing newline run
unchanged. -/
theorem trailNL_cons_of_ne (c : Char) (s : Str) (hc : c ≠ nl) :
    trailNL (c :: s) = trailNL s := by
  unfold trailNL
  rw [List.reverse_cons, takeWhile_append_single_false _ _ _ (by simp [hc])]

/-- A newline-free line closed by one newline is a good block body. -/
theorem goodBody_line (line : Str) (hne : line ≠ []) (hnl : nl ∉ line) :
    GoodBody (line ++ [nl]) := by
  cases line with
  | nil => exact absurd rfl hne
  | cons c t =>
    refine ⟨⟨c, t ++ [nl], List.cons_append c t [nl], ?_⟩, Or.inl ?_⟩
    · exact fun he => hnl (he ▸ List.mem_cons_self c t)
    · rw [trailNL_append_nl, trailNL_of_no_nl _ hnl]

/-- A newline-free line closed by a blank line is a good block body. -/
theorem goodBody_line2 (line : Str) (hne : line ≠ []) (hnl : nl ∉ line) :
    GoodBody (line ++ [nl, nl]) := by
  cases line with
  | nil => exact absurd rfl hne
  | cons c t =>
    refine ⟨⟨c, t ++ [nl, nl], List.cons_append c t [nl, nl], ?_⟩, Or.inr ?_⟩
    · exact fun he => hnl (he ▸ List.mem_cons_self c t)
    · rw [trailNL_append_nlnl, trailNL_of_no_nl _ hnl]

/-- A joined block of non-empty pieces, each with a non-newline head and no
trailing newline run, closed by a blank line, is a good block body. -/
theorem goodBody_join_block (sep : Str) (ps : List Str) (hne : ps ≠ [])
    (hprops : ∀ p ∈ ps, p ≠ [] ∧ trailNL p = 0)
    (hheads : ∀ p ∈ ps, ∃ c u, p = c :: u ∧ c ≠ nl) :
    GoodBody (joinSep sep ps ++ [nl, nl]) := by
  cases ps with
  | nil => exact absurd rfl hne
  | cons p rest =>
    obtain ⟨c, u, hcu, hcne⟩ := hheads p (List.mem_cons_self p rest)
    subst hcu
    obtain ⟨v, hv⟩ := joinSep_head sep c u rest
    refine ⟨⟨c, v ++ [nl, nl], ?_, hcne⟩, Or.inr ?_⟩
    · rw [hv, List.cons_append]
    · rw [trailNL_append_nlnl, trailNL_joinSep_zero sep _ hne hprops]

/-- A flat `tasks` argument renders non-empty and without a trailing
newline run. -/
theorem taskItemText_props (w : Writer) (arg : TaskArg) :
    taskItemText w arg ≠ [] ∧ trailNL (taskItemText w arg) = 0 := by
  have hgen : ∀ (cb : Str), cb ≠ [] → trailNL cb = 0 → ∀ r : Str,
      cb ++ jsTrimEnd r ≠ [] ∧ trailNL (cb ++ jsTrimEnd r) = 0 := by
    intro cb hne htr r
    constructor
    · intro h
      exact hne (List.append_eq_nil.mp h).1
    · cases hx : jsTrimEnd r with
      | nil => rw [List.append_nil]; exact htr
      | cons x xs =>
        exact trailNL_append_right cb (x :: xs) (List.cons_ne_nil x xs)
          (hx ▸ trailNL_trimEnd r)
  cases arg with
  | plain c => exact hgen (S ("[ ] ")) (by decide) (by decide) _
  | pair c chk =>
    cases chk
    · exact hgen (S ("[ ] ")) (by decide) (by decide) _
    · exact hgen (S ("[x] ")) (by decide) (by decide) _

/-- The flat `orderedList` item loop never yields an empty item list on a
non-empty input. -/
theorem orderedItemsFlat_ne_nil (safe : Bool) (k : Nat) (i : ContentValue)
    (rest : List ContentValue) : orderedItemsFlat safe k (i :: rest) ≠ [] := by
  cases i with
  | writer iw => exact List.cons_ne_nil _ _
  | str s => exact List.cons_ne_nil _ _
  | safe s => exact List.cons_ne_nil _ _
  | num n => exact List.cons_ne_nil _ _
  | bool b => exact List.cons_ne_nil _ _

/-- Each piece produced by the flat `orderedList` item loop on controlled
items is non-empty, has no trailing newline run, and starts with a
non-newline character. -/
theorem orderedItemsFlat_props (safe : Bool) :
    ∀ (items : List ContentValue) (k : Nat),
      (∀ i ∈ items, scalarOk i) →
      ∀ p ∈ orderedItemsFlat safe k items,
        (p ≠ [] ∧ trailNL p = 0) ∧ ∃ c u, p = c :: u ∧ c ≠ nl := by
  intro items
  induction items with
  | nil =>
    intro k _ p hp
    exact absurd hp (List.not_mem_nil p)
  | cons i rest ih =>
    intro k hsc p hp
    have hrest : ∀ j ∈ rest, scalarOk j :=
      fun j hj => hsc j (List.mem_cons_of_mem i hj)
    cases i with
    | writer iw =>
      have hp2 : p ∈ indentNestedWriter iw :: orderedItemsFlat safe k rest := hp
      rcases List.mem_cons.mp hp2 with rfl | hp3
      · obtain ⟨h1, h2, u, h3⟩ := indentNestedWriter_props iw
        exact ⟨⟨h1, h2⟩, ' ', u, h3, by decide⟩
      · exact ih k hrest p hp3
    | str s =>
      have hs : nl ∉ s := hsc _ (List.mem_cons_self _ _)
      have hp2 : p ∈
          (natToStr k ++ '.' :: ' ' :: escapeUntrusted safe .noTrim (.str s)) ::
            orderedItemsFlat safe (k + 1) rest := hp
      rcases List.mem_cons.mp hp2 with rfl | hp3
      · have hnlp : nl ∉ natToStr k ++ '.' :: ' ' ::
            escapeUntrusted safe .noTrim (.str s) := by
          intro hm
          rcases List.mem_append.mp hm with hm | hm
          · exact natToStr_no_nl k hm
          · rcases List.mem_cons.mp hm with hm | hm
            · exact absurd hm (by decide)
            · rcases List.mem_cons.mp hm with hm | hm
              · exact absurd hm (by decide)
              · rw [escapeUntrusted_str] at hm
                exact escIf_no_nl safe s hs hm
        refine ⟨⟨?_, trailNL_of_no_nl _ hnlp⟩, ?_⟩
        · intro h
          exact natToStr_ne_nil k (List.append_eq_nil.mp h).1
        · cases hk : natToStr k with
          | nil => exact absurd hk (natToStr_ne_nil k)
          | cons c u =>
            refine ⟨c, u ++ '.' :: ' ' :: escapeUntrusted safe .noTrim (.str s),
              rfl, ?_⟩
            · intro he
              exact natToStr_no_nl k
                (by rw [hk, ← he]; exact List.mem_cons_self _ _)
      · exact ih (k + 1) hrest p hp3
    | safe s =>
      have hs : nl ∉ s := hsc _ (List.mem_cons_self _ _)
      have hp2 : p ∈
          (natToStr k ++ '.' :: ' ' :: escapeUntrusted safe .noTrim (.safe s)) ::
            orderedItemsFlat safe (k + 1) rest := hp
      rcases List.mem_cons.mp hp2 with rfl | hp3
      · have hnlp : nl ∉ natToStr k ++ '.' :: ' ' ::
            escapeUntrusted safe .noTrim (.safe s) := by
          intro hm
          rcases List.mem_append.mp hm with hm | hm
          · exact natToStr_no_nl k hm
          · rcases List.mem_cons.mp hm with hm | hm
            · exact absurd hm (by decide)
            · rcases List.mem_cons.mp hm with hm | hm
              · exact absurd hm (by decide)
              · rw [escapeUntrusted_trusted] at hm
                exact hs hm
        refine ⟨⟨?_, trailNL_of_no_nl _ hnlp⟩, ?_⟩
        · intro h
          exact natToStr_ne_nil k (List.append_eq_nil.mp h).1
        · cases hk : natToStr k with
          | nil => exact absurd hk (natToStr_ne_nil k)
          | cons c u =>
            refine ⟨c, u ++ '.' :: ' ' :: escapeUntrusted safe .noTrim (.safe s),
              rfl, ?_⟩
            · intro he
              exact natToStr_no_nl k
                (by rw [hk, ← he]; exact List.mem_cons_self _ _)
      · exact ih (k + 1) hrest p hp3
    | num n =>
      have hf : False := hsc _ (List.mem_cons_self _ _)
      exact hf.elim
    | bool b =>
      have hf : False := hsc _ (List.mem_cons_self _ _)
      exact hf.elim

/-- One controlled block operation preserves the engine invariant: its body
starts with a non-newline character and ends in one or two newlines, so the
padding engine tops the boundary up to exactly two newlines. -/
theorem applyOp_inv (w : Writer) (op : BlockOp) (hw : WriterInv w)
    (hop : WFOp op) : WriterInv (applyOp w op) := by
  cases op with
  | writeOp args =>
    have hop2 : args ≠ [] ∧ ∀ a ∈ args, a ≠ [] ∧ nl ∉ a := hop
    obtain ⟨hJne, hJnl⟩ := write_join_props w.safeMode args hop2.1 hop2.2
    show WriterInv (write w (args.map ContentValue.str))
    have heq : write w (args.map ContentValue.str) =
        pushWithPadding w (joinSep [' ']
          ((args.map ContentValue.str).map
            (escapeUntrusted w.safeMode .endTrim)) ++ [nl]) := by
      unfold write
      rw [isEmpty_false_of_ne_nil _ hJne, Bool.and_false]
      simp
    rw [heq]
    exact WriterInv_push w _ hw (goodBody_line _ hJne hJnl)
  | unorderedOp items =>
    have hop2 : items ≠ [] ∧ ∀ i ∈ items, scalarOk i := hop
    show WriterInv (unorderedList w items)
    unfold unorderedList
    apply WriterInv_push w _ hw
    apply goodBody_join_block
    · intro h
      exact hop2.1 (List.map_eq_nil_iff.mp h)
    · intro p hp
      obtain ⟨i, hi, hmap⟩ := List.mem_map.mp hp
      subst hmap
      obtain ⟨h1, h2, _⟩ := unorderedListItemText_props w.safeMode i (hop2.2 i hi)
      exact ⟨h1, h2⟩
    · intro p hp
      obtain ⟨i, hi, hmap⟩ := List.mem_map.mp hp
      subst hmap
      exact (unorderedListItemText_props w.safeMode i (hop2.2 i hi)).2.2
  | orderedOp items =>
    have hop2 : items ≠ [] ∧ ∀ i ∈ items, scalarOk i := hop
    show WriterInv (orderedList w items)
    unfold orderedList
    apply WriterInv_push w _ hw
    apply goodBody_join_block
    · cases items with
      | nil => exact absurd rfl hop2.1
      | cons i rest => exact orderedItemsFlat_ne_nil w.safeMode 1 i rest
    · intro p hp
      exact (orderedItemsFlat_props w.safeMode items 1 hop2.2 p hp).1
    · intro p hp
      exact (orderedItemsFlat_props w.safeMode items 1 hop2.2 p hp).2
  | tasksOp args =>
    have hargs : args ≠ [] := hop
    show WriterInv (pushWithPadding w
      (joinSep [nl]
        ((args.map (taskItemText w)).map fun item => '-' :: ' ' :: item) ++
        [nl, nl]))
    apply WriterInv_push w _ hw
    apply goodBody_join_block
    · intro h
      exact hargs (List.map_eq_nil_iff.mp (List.map_eq_nil_iff.mp h))
    · intro p hp
      obtain ⟨item, hitem, hmap⟩ := List.mem_map.mp hp
      obtain ⟨arg, _, hmap2⟩ := List.mem_map.mp hitem
      subst hmap
      subst hmap2
      refine ⟨List.cons_ne_nil _ _, ?_⟩
      rw [trailNL_cons_of_ne '-' _ (by decide), trailNL_cons_of_ne ' ' _ (by decide)]
      exact (taskItemText_props w arg).2
    · intro p hp
      obtain ⟨item, _, hmap⟩ := List.mem_map.mp hp
      exact ⟨'-', ' ' :: item, hmap.symm, by decide⟩
  | headingOp level content =>
    have hcontent : ∀ a ∈ content, nl ∉ a := hop
    show WriterInv (heading w level content)
    unfold heading
    apply WriterInv_push w _ hw
    apply goodBody_line2
    · intro h
      exact List.cons_ne_nil ' ' _ (List.append_eq_nil.mp h).2
    · intro hm
      rcases List.mem_append.mp hm with hm | hm
      · exact absurd (List.mem_replicate.mp hm).2 (by decide)
      · rcases List.mem_cons.mp hm with hm | hm
        · exact absurd hm (by decide)
        · rcases mem_joinSep _ _ _ hm with hs | ⟨p, hp, hmp⟩
          · exact absurd hs (by decide)
          · obtain ⟨part, hpart, hmap⟩ := List.mem_map.mp hp
            subst hmap
            rw [escapeUntrusted_str] at hmp
            exact escIf_no_nl w.safeMode part (hcontent part hpart) hmp
  | blockquoteOp lines =>
    have hop2 : lines ≠ [] ∧ ∀ a ∈ lines, nl ∉ a := hop
    show WriterInv (blockquote w lines)
    unfold blockquote
    apply WriterInv_push w _ hw
    apply goodBody_join_block
    · intro h
      exact hop2.1 (List.map_eq_nil_iff.mp h)
    · intro p hp
      obtain ⟨line, hline, hmap⟩ := List.mem_map.mp hp
      subst hmap
      refine ⟨List.cons_ne_nil _ _, trailNL_of_no_nl _ ?_⟩
      intro hm
      rcases List.mem_cons.mp hm with hm | hm
      · exact absurd hm (by decide)
      · rcases List.mem_cons.mp hm with hm | hm
        · exact absurd hm (by decide)
        · rw [escapeUntrusted_str] at hm
          exact escIf_no_nl w.safeMode line (hop2.2 line hline) hm
    · intro p hp
      obtain ⟨line, _, hmap⟩ := List.mem_map.mp hp
      exact ⟨'>', ' ' :: escapeUntrusted w.safeMode .noTrim (.str line),
        hmap.symm, by decide⟩
  | codeblockOp language content =>
    show WriterInv (codeblock w language content)
    unfold codeblock
    have hS : S ("```") = backtick :: backtick :: backtick :: [] := by decide
    simp only [hS, List.cons_append, List.nil_append]
    refine WriterInv_push w _ hw ⟨⟨backtick, _, rfl, by decide⟩, Or.inr ?_⟩
    rw [trailNL_cons_of_ne backtick _ (by decide),
      trailNL_cons_of_ne backtick _ (by decide),
      trailNL_cons_of_ne backtick _ (by decide), trailNL_append_nlnl]
    have h0 : trailNL ((language ++ nl :: content) ++
        (nl :: backtick :: backtick :: backtick :: [])) = 0 :=
      trailNL_append_right _ _ (List.cons_ne_nil _ _) (by decide)
    rw [h0]
  | tagOp name content =>
    show WriterInv (tag w name (.str content))
    unfold tag
    refine WriterInv_push w _ hw ⟨⟨'<', _, rfl, by decide⟩, Or.inl ?_⟩
    rw [trailNL_append_keep]
    · decide
    · exact ⟨'>', by decide, by decide⟩
  | calloutOp kind content =>
    show WriterInv (callout w kind content)
    unfold callout
    apply WriterInv_push w _ hw
    apply goodBody_join_block
    · simp
    · intro p hp
      obtain ⟨line, hline, hmap⟩ := List.mem_map.mp hp
      subst hmap
      refine ⟨List.cons_ne_nil _ _, trailNL_of_no_nl _ ?_⟩
      intro hm
      rcases List.mem_cons.mp hm with hm | hm
      · exact absurd hm (by decide)
      · rcases List.mem_cons.mp hm with hm | hm
        · exact absurd hm (by decide)
        · rcases List.mem_cons.mp hline with hline2 | hline2
          · subst hline2
            cases kind <;> exact absurd hm (by decide)
          · exact splitOnNl_no_nl _ line hline2 hm
    · intro p hp
      obtain ⟨line, _, hmap⟩ := List.mem_map.mp hp
      exact ⟨'>', ' ' :: line, hmap.symm, by decide⟩
  | commentOp content =>
    show WriterInv (comment w content)
    unfold comment
    have hS : S ("<!-- ") = '<' :: '!' :: '-' :: '-' :: ' ' :: [] := by decide
    simp only [hS, List.cons_append, List.nil_append]
    refine WriterInv_push w _ hw ⟨⟨'<', _, rfl, by decide⟩, Or.inr ?_⟩
    rw [trailNL_cons_of_ne '<' _ (by decide), trailNL_cons_of_ne '!' _ (by decide),
      trailNL_cons_of_ne '-' _ (by decide), trailNL_cons_of_ne '-' _ (by decide),
      trailNL_cons_of_ne ' ' _ (by decide), trailNL_append_nlnl]
    have h0 : trailNL (content ++ S (" -->")) = 0 :=
      trailNL_append_right _ _ (by decide) (by decide)
    rw [h0]
  | separatorOp =>
    show WriterInv (separator w)
    unfold separator
    exact WriterInv_push w _ hw
      ⟨⟨'-', ['-', '-', nl, nl], by decide, by decide⟩, Or.inr (by decide)⟩

/-- One controlled block operation stores exactly one new fragment. -/
theorem applyOp_parts_length (w : Writer) (op : BlockOp) (hop : WFOp op) :
    (applyOp w op).parts.length = w.parts.length + 1 := by
  have hpush : ∀ b : Str, (pushWithPadding w b).parts.length = w.parts.length + 1 := by
    intro b
    simp [pushWithPadding_parts]
  cases op with
  | writeOp args =>
    have hop2 : args ≠ [] ∧ ∀ a ∈ args, a ≠ [] ∧ nl ∉ a := hop
    obtain ⟨hJne, hJnl⟩ := write_join_props w.safeMode args hop2.1 hop2.2
    show (write w (args.map ContentValue.str)).parts.length = w.parts.length + 1
    unfold write
    rw [isEmpty_false_of_ne_nil _ hJne, Bool.and_false]
    simp only [Bool.false_eq_true, if_false]
    exact hpush _
  | unorderedOp items => exact hpush _
  | orderedOp items => exact hpush _
  | tasksOp args => exact hpush _
  | headingOp level content => exact hpush _
  | blockquoteOp lines => exact hpush _
  | codeblockOp language content => exact hpush _
  | tagOp name content => exact hpush _
  | calloutOp kind content => exact hpush _
  | commentOp content => exact hpush _
  | separatorOp => exact hpush _

/-- The invariant holds after folding any list of controlled operations
over a writer that satisfies it. -/
theorem foldl_applyOp_inv : ∀ (ops : List BlockOp) (w : Writer), WriterInv w →
    (∀ op ∈ ops, WFOp op) → WriterInv (List.foldl applyOp w ops) := by
  intro ops
  induction ops with
  | nil =>
    intro w hw _
    exact hw
  | cons op rest ih =>
    intro w hw h
    rw [List.foldl_cons]
    exact ih (applyOp w op)
      (applyOp_inv w op hw (h op (List.mem_cons_self op rest)))
      (fun o ho => h o (List.mem_cons_of_mem op ho))

/-- Folding controlled operations stores one fragment per operation. -/
theorem foldl_applyOp_length : ∀ (ops : List BlockOp) (w : Writer),
    (∀ op ∈ ops, WFOp op) →
    (List.foldl applyOp w ops).parts.length = w.parts.length + ops.length := by
  intro ops
  induction ops with
  | nil =>
    intro w _
    rfl
  | cons op rest ih =>
    intro w h
    rw [List.foldl_cons,
      ih (applyOp w op) (fun o ho => h o (List.mem_cons_of_mem op ho)),
      applyOp_parts_length w op (h op (List.mem_cons_self op rest)),
      List.length_cons]
    omega

/-- A writer built from scratch through a sequence of block operations. -/
def buildOps (safe : Bool) (ops : List BlockOp) : Writer :=
  List.foldl applyOp (makeWriter none safe) ops

/-- C2.  Paragraph-break invariant: build a writer only through the block
appenders and `write`, with controlled payloads (`WFOp`: non-degenerate
calls whose direct string arguments carry no raw newlines) and no
intervening `nextLine`.  Then the writer stores exactly one fragment per
block append, every fragment contains a non-newline character and ends in
one or two newlines, and at every boundary between consecutive fragments
the trailing newline run of the earlier block plus the leading newline run
of the later block is exactly two.  Since each block's maximal newline
runs at the boundary are these two runs, the rendered `toString` boundary
between any two consecutive blocks carries exactly one blank line (exactly
two consecutive newline characters), never three or more. -/
theorem c2_paragraph_break_invariant (safe : Bool) (ops : List BlockOp)
    (hwf : ∀ op ∈ ops, WFOp op) :
    (buildOps safe ops).parts.length = ops.length ∧
    (∀ p ∈ (buildOps safe ops).parts,
      (∃ c ∈ p, c ≠ nl) ∧ (trailNL p = 1 ∨ trailNL p = 2)) ∧
    List.Chain' (fun p q => trailNL p + leadNL q = 2) (buildOps safe ops).parts := by
  obtain ⟨-, h2, h3⟩ :=
    foldl_applyOp_inv ops (makeWriter none safe) (WriterInv_empty safe) hwf
  refine ⟨?_, h2, h3⟩
  have hlen := foldl_applyOp_length ops (makeWriter none safe) hwf
  show (List.foldl applyOp (makeWriter none safe) ops).parts.length = ops.length
  rw [hlen, show (makeWriter none safe).parts.length = 0 from rfl]
  exact Nat.zero_add _

/-- A concrete mixed-block document: a paragraph, a heading, an unordered
list with a trusted item, a code block, a tag, a callout and a
separator. -/
def demoOps : List BlockOp :=
  [.writeOp [S ("hello world")],
   .headingOp 2 [S ("Title")],
   .unorderedOp [.str (S ("alpha")), .safe (S ("beta"))],
   .codeblockOp (S ("ts")) (S ("const x = 1;")),
   .tagOp (S ("notes")) (S ("free text")),
   .calloutOp .WARNING (S ("careful")),
   .separatorOp]

theorem c2_paragraph_break_invariant_witness :
    (∀ op ∈ demoOps, WFOp op) ∧
    ((buildOps true demoOps).parts.length = demoOps.length ∧
     (∀ p ∈ (buildOps true demoOps).parts,
       (∃ c ∈ p, c ≠ nl) ∧ (trailNL p = 1 ∨ trailNL p = 2)) ∧
     List.Chain' (fun p q => trailNL p + leadNL q = 2)
       (buildOps true demoOps).parts) :=
  ⟨by decide, c2_paragraph_break_invariant true demoOps (by decide)⟩

end ProseWriter



